import Mathlib

/-!
# Locksmith network manager: peer lifecycle

A shallow embedding of `internal/nm/nm.go`, `internal/nm/gc.go` and
`internal/nm/errors.go`.

* Go maps with string keys are duplicate-free association lists (`GoMap`).
* The network manager is threaded explicitly; every operation returns the
  manager after the call together with the Go `error` (`none` for `nil`).
* A state read from the store is a fresh value: the maps of two reads are
  not shared, and a change to a loaded state reaches the store only through
  a write (section 3: a Network is reconstructed on every access from the
  state store; section 5: each call works on the in-memory copy it fetched
  independently).
* "The overlay configured under `id`" is the result of `findNet`, the lookup
  loop of `GetNet`; with unique identifiers it is the one overlay of the
  configuration with that identifier (`findNet_of_unique`).
* The collaborators that live outside these files (state store, hooks,
  peer configuration callbacks) are the fields of `Env`.
* `NetworkManager.trace` is a ghost field: the chronological list of the
  external effects of the calls made so far (store reads and writes, hooks
  run, interface syncs dispatched with `go net.Sync()`).
* `time.Now()` is an argument of each exported operation; a call is treated
  as instantaneous, so the cascaded calls read the same clock value.
-/

namespace Locksmith

/-! ## Go maps -/

/-- First value stored under `k` in an association list. -/
def lookup {α : Type} : List (String × α) → String → Option α
  | [], _ => none
  | e :: rest, k => if e.1 = k then some e.2 else lookup rest k

/-- Go `map[string]α`: an association list without duplicate keys. -/
structure GoMap (α : Type) where
  entries : List (String × α)
  nodup : (entries.map Prod.fst).Nodup

namespace GoMap

variable {α : Type}

instance instDecidableEq [DecidableEq α] : DecidableEq (GoMap α) := fun a b =>
  decidable_of_iff (a.entries = b.entries)
    ⟨fun h => by cases a; cases b; cases h; rfl, fun h => by rw [h]⟩

/-- The empty map, `make(map[string]α)`. -/
def empty : GoMap α := ⟨[], List.nodup_nil⟩

/-- Go `v, ok := m[k]`: `some v` when `ok`, `none` otherwise. -/
def get? (m : GoMap α) (k : String) : Option α := lookup m.entries k

/-- Go `delete(m, k)`. -/
def delete (m : GoMap α) (k : String) : GoMap α :=
  ⟨m.entries.filter (fun e => !decide (e.1 = k)),
    m.nodup.sublist ((List.filter_sublist m.entries).map Prod.fst)⟩

/-- Go `m[k] = v`. -/
def set (m : GoMap α) (k : String) (v : α) : GoMap α :=
  ⟨(k, v) :: (m.delete k).entries,
    List.nodup_cons.2
      ⟨fun h => by
          obtain ⟨e, he, hk⟩ := List.mem_map.1 h
          have hne := (List.mem_filter.1 he).2
          simp at hne
          exact hne hk,
        (m.delete k).nodup⟩⟩

/-- Go `len(m)`. -/
def len (m : GoMap α) : Nat := m.entries.length

/-- Go `for k, v := range m { if drop(k, v) { delete(m, k) } }`: every entry
is visited once, and deleting the visited key of a duplicate-free map removes
exactly the visited entry. -/
def rangeDelete (m : GoMap α) (drop : String → α → Bool) : GoMap α :=
  m.entries.foldl (fun acc e => if drop e.1 e.2 then acc.delete e.1 else acc) m

end GoMap

/-! ## Data model -/

/-- Go `time.Time`, as a count of nanoseconds. -/
abbrev Time := Int

/-- Go `time.Duration`, a count of nanoseconds. -/
abbrev Duration := Int

/-- Go `t.Add(d)`. -/
def Time.Add (t : Time) (d : Duration) : Time := t + d

/-- Go `t.After(u)`: `t` is strictly later than `u`. -/
def Time.After (t u : Time) : Bool := decide (u < t)

/-- The error values of `errors.go`; `other` stands for the errors of the
collaborators (store, hooks) that are none of the named ones. -/
inductive Error where
  | ErrUnknownHook
  | ErrUnknownNetwork
  | ErrUnknownPeer
  | ErrUnknownStore
  | ErrUnknownAddresser
  | ErrInternalError
  | other (msg : String)
  deriving DecidableEq, Repr

/-- Modelled from the spec: `models.Peer` is declared in package `models`,
outside `internal/nm`. Section 3: public key, assigned addresses, descriptive
metadata. -/
structure Peer where
  PubKey : String
  Addresses : List String
  Metadata : List (String × String)
  deriving DecidableEq, Repr

/-- Modelled from the spec: `models.NetConfig` is declared in package
`models`, outside `internal/nm`. The fields are those `nm.go` reads (`ID`,
`Name`, `ApproveMode`, `ActivateMode`, `ApproveExpiry`, `ActivateExpiry`,
`PreApproveHooks`, `IPAM`), with the types of section 3. -/
structure NetConfig where
  ID : String
  Name : String
  ApproveMode : String
  ActivateMode : String
  ApproveExpiry : Duration
  ActivateExpiry : Duration
  PreApproveHooks : List String
  IPAM : List String
  deriving DecidableEq, Repr

/-- Modelled from the spec: `models.NetState` is declared in package
`models`, outside `internal/nm`. The fields are the five maps `nm.go` and
`gc.go` use, with the types of section 3. The maps are never nil (the store
creates them). -/
structure NetState where
  StagedPeers : GoMap Peer
  ApprovedPeers : GoMap Peer
  ActivePeers : GoMap Peer
  ApprovalExpirations : GoMap Time
  ActivationExpirations : GoMap Time
  deriving DecidableEq

/-- The state with five empty maps. -/
def NetState.empty : NetState :=
  ⟨GoMap.empty, GoMap.empty, GoMap.empty, GoMap.empty, GoMap.empty⟩

/-- Modelled from the spec: the type `Network` is declared outside `nm.go`,
`gc.go` and `errors.go`. Section 3: the composition of one overlay
configuration and the overlay state; `GetNet` fills its embedded `NetConfig`
and `NetState`. -/
structure Network extends NetConfig, NetState
  deriving DecidableEq

/-- One external effect of the network manager. -/
inductive Effect where
  | GetState (id : String)
  | PutState (id : String) (s : NetState)
  | RunPreApproveHook (hook : String) (netID : String) (client : Peer)
  | Sync (net : Network)
  deriving DecidableEq

/-- Modelled from the spec: the collaborators of `nm.go` are defined outside
`nm.go`, `gc.go` and `errors.go`, so they are the fields of this structure.
`σ` is the state of the state store; section 4.3 gives its contract,
`get(overlayID)` and `put(overlayID, OverlayState)`, each of which can fail.
Section 4.1: the pre-approval hooks are external collaborators, and
`configurePeer` and `deconfigurePeer` are the external callbacks that assign
driver-specific parameters to the peer; the overlay is only read. -/
structure Env (σ : Type) where
  /-- The store's `GetState(id)`. -/
  GetState : σ → String → Except Error NetState
  /-- The store's `PutState(id, state)`: the store afterwards and the error. -/
  PutState : σ → String → NetState → σ × Option Error
  /-- The result of `nm.RunPreApproveHook(hook, netID, client)`. -/
  RunPreApproveHook : String → String → Peer → Option Error
  /-- The peer after `nm.configurePeer(&net, &peer)`. -/
  configurePeer : Network → Peer → Peer
  /-- The peer after `nm.deconfigurePeer(&net, &peer)`. -/
  deconfigurePeer : Network → Peer → Peer

/-- The network manager: the configured overlays, the state store, and the
ghost trace of effects (oldest first). -/
structure NetworkManager (σ : Type) where
  networks : List NetConfig
  Store : σ
  trace : List Effect

/-- Go `strings.ToUpper`, on the ASCII letters. No other rune has `A`, `U`,
`T` or `O` as its upper case, so the comparison with `"AUTO"` is decided as
in Go. -/
def ToUpper (s : String) : String := String.mk (s.data.map Char.toUpper)

section Operations

variable {σ : Type}

/-- Record an effect at the end of the trace. -/
def NetworkManager.emit (nm : NetworkManager σ) (e : Effect) : NetworkManager σ :=
  { nm with trace := nm.trace ++ [e] }

/-- Call of `nm.GetState(id)` on the embedded store. -/
def GetState (env : Env σ) (nm : NetworkManager σ) (id : String) :
    NetworkManager σ × Except Error NetState :=
  (nm.emit (Effect.GetState id), env.GetState nm.Store id)

/-- Call of `nm.PutState(id, s)` on the embedded store. -/
def PutState (env : Env σ) (nm : NetworkManager σ) (id : String) (s : NetState) :
    NetworkManager σ × Option Error :=
  ({ nm with Store := (env.PutState nm.Store id s).1, trace := nm.trace ++ [Effect.PutState id s] },
    (env.PutState nm.Store id s).2)

/-- The loop of `GetNet`: the first configured overlay whose `ID` is `id`. -/
def findNet : List NetConfig → String → Option NetConfig
  | [], _ => none
  | c :: rest, id => if c.ID = id then some c else findNet rest id

/-- `GetNet` of `nm.go`. -/
def GetNet (env : Env σ) (nm : NetworkManager σ) (id : String) :
    NetworkManager σ × Except Error Network :=
  match findNet nm.networks id with
  | none => (nm, Except.error Error.ErrUnknownNetwork)
  | some c =>
    match GetState env nm c.ID with
    | (nm1, Except.error err) => (nm1, Except.error err)
    | (nm1, Except.ok s) => (nm1, Except.ok { toNetConfig := c, toNetState := s })

/-- `StoreNet` of `nm.go`. -/
def StoreNet (env : Env σ) (nm : NetworkManager σ) (net : Network) :
    NetworkManager σ × Option Error :=
  PutState env nm net.ID net.toNetState

/-- `ActivatePeer` of `nm.go`, called at clock time `now`. -/
def ActivatePeer (env : Env σ) (now : Time) (nm : NetworkManager σ) (netID pubkey : String) :
    NetworkManager σ × Option Error :=
  match GetNet env nm netID with
  | (nm1, Except.error err) => (nm1, some err)
  | (nm1, Except.ok net) =>
    match net.ApprovedPeers.get? pubkey with
    | none => (nm1, some Error.ErrUnknownPeer)
    | some peer =>
      let net1 : Network :=
        if net.ActivateExpiry ≠ 0 then
          { net with ActivationExpirations :=
              net.ActivationExpirations.set pubkey (now.Add net.ActivateExpiry) }
        else net
      let net2 : Network := { net1 with ActivePeers := net1.ActivePeers.set peer.PubKey peer }
      StoreNet env (nm1.emit (Effect.Sync net2)) net2

/-- `ApprovePeer` of `nm.go`, called at clock time `now`. -/
def ApprovePeer (env : Env σ) (now : Time) (nm : NetworkManager σ) (netID pubkey : String) :
    NetworkManager σ × Option Error :=
  match GetNet env nm netID with
  | (nm1, Except.error err) => (nm1, some err)
  | (nm1, Except.ok net) =>
    match net.StagedPeers.get? pubkey with
    | none => (nm1, some Error.ErrUnknownPeer)
    | some peer0 =>
      let peer := env.configurePeer net peer0
      let net1 : Network := { net with ApprovedPeers := net.ApprovedPeers.set pubkey peer }
      let net2 : Network := { net1 with StagedPeers := net1.StagedPeers.delete pubkey }
      let net3 : Network :=
        if net2.ApproveExpiry ≠ 0 then
          { net2 with ApprovalExpirations :=
              net2.ApprovalExpirations.set pubkey (now.Add net2.ApproveExpiry) }
        else net2
      match StoreNet env nm1 net3 with
      | (nm2, some err) => (nm2, some err)
      | (nm2, none) =>
        if ToUpper net3.ActivateMode = "AUTO" then
          ActivatePeer env now nm2 netID pubkey
        else (nm2, none)

/-- `DeactivatePeer` of `nm.go`. -/
def DeactivatePeer (env : Env σ) (nm : NetworkManager σ) (netID pubkey : String) :
    NetworkManager σ × Option Error :=
  match GetNet env nm netID with
  | (nm1, Except.error err) => (nm1, some err)
  | (nm1, Except.ok net) =>
    let pri := net.ActivePeers.len
    let net1 : Network := { net with ActivePeers := net.ActivePeers.delete pubkey }
    let net2 : Network :=
      { net1 with ActivationExpirations := net1.ActivationExpirations.delete pubkey }
    let nm2 := if pri ≠ net2.ActivePeers.len then nm1.emit (Effect.Sync net2) else nm1
    StoreNet env nm2 net2

/-- `DisapprovePeer` of `nm.go`. The deconfigured `peer` is a local copy that
is not stored again. -/
def DisapprovePeer (env : Env σ) (nm : NetworkManager σ) (netID pubkey : String) :
    NetworkManager σ × Option Error :=
  match GetNet env nm netID with
  | (nm1, Except.error err) => (nm1, some err)
  | (nm1, Except.ok net) =>
    match net.ApprovedPeers.get? pubkey with
    | none => (nm1, some Error.ErrUnknownPeer)
    | some peer0 =>
      let _peer := env.deconfigurePeer net peer0
      match StoreNet env nm1 net with
      | (nm2, some err) => (nm2, some err)
      | (nm2, none) => DeactivatePeer env nm2 netID pubkey

/-- `stagePeer` of `nm.go`, called at clock time `now`. -/
def stagePeer (env : Env σ) (now : Time) (nm : NetworkManager σ) (netID : String)
    (client : Peer) : NetworkManager σ × Option Error :=
  match GetNet env nm netID with
  | (nm1, Except.error err) => (nm1, some err)
  | (nm1, Except.ok net) =>
    let net1 : Network := { net with StagedPeers := net.StagedPeers.set client.PubKey client }
    match StoreNet env nm1 net1 with
    | (nm2, some err) => (nm2, some err)
    | (nm2, none) =>
      if ToUpper net1.ApproveMode = "AUTO" then
        ApprovePeer env now nm2 netID client.PubKey
      else (nm2, none)

/-- The hook loop of `AttemptNetworkRegistration`: the hooks run in order
until the first failure. -/
def runHooks (env : Env σ) (nm : NetworkManager σ) (netID : String) (client : Peer) :
    List String → NetworkManager σ × Option Error
  | [] => (nm, none)
  | h :: rest =>
    match env.RunPreApproveHook h netID client with
    | some err => (nm.emit (Effect.RunPreApproveHook h netID client), some err)
    | none => runHooks env (nm.emit (Effect.RunPreApproveHook h netID client)) netID client rest

/-- `AttemptNetworkRegistration` of `nm.go`, called at clock time `now`. The
last line stores `net`, the value loaded by the first line. -/
def AttemptNetworkRegistration (env : Env σ) (now : Time) (nm : NetworkManager σ)
    (netID : String) (client : Peer) : NetworkManager σ × Option Error :=
  match GetNet env nm netID with
  | (nm1, Except.error err) => (nm1, some err)
  | (nm1, Except.ok net) =>
    match runHooks env nm1 netID client net.PreApproveHooks with
    | (nm2, some err) => (nm2, some err)
    | (nm2, none) =>
      match stagePeer env now nm2 netID client with
      | (nm3, some err) => (nm3, some err)
      | (nm3, none) => StoreNet env nm3 net

/-- The two sweep loops of `ProcessExpirations` for one overlay state at
sweep time `now`. -/
def sweepState (now : Time) (s : NetState) : NetState :=
  let s1 : NetState :=
    { s with ApprovalExpirations :=
        s.ApprovalExpirations.rangeDelete (fun _ expiration => now.After expiration) }
  { s1 with ActivationExpirations :=
      s1.ActivationExpirations.rangeDelete (fun _ expiration => now.After expiration) }

/-- Modelled from the spec: the schedule fields that `gc.go` reads through
`nm.networks[i]` and `PutNetwork` are declared outside `nm.go`, `gc.go` and
`errors.go`. Sections 3 and 4.2: the overlay's schedules are those of its
state fetched from the state store, and the sweep persists that state under
the overlay's identifier. This is the body of the outer loop of
`ProcessExpirations` for the overlay `c`; the result of the write is discarded
as in `gc.go`, and an overlay whose state cannot be read has no schedule to
sweep. -/
def sweepNetwork (env : Env σ) (now : Time) (nm : NetworkManager σ) (c : NetConfig) :
    NetworkManager σ :=
  match GetState env nm c.ID with
  | (nm1, Except.error _) => nm1
  | (nm1, Except.ok s) => (PutState env nm1 c.ID (sweepState now s)).1

/-- `ProcessExpirations` of `gc.go`, run at sweep time `now`. -/
def ProcessExpirations (env : Env σ) (now : Time) (nm : NetworkManager σ) : NetworkManager σ :=
  nm.networks.foldl (sweepNetwork env now) nm

end Operations

/-! ## Stores -/

/-- A store on which every write succeeds and a read returns the state last
put under the identifier. -/
structure Env.Reliable {σ : Type} (env : Env σ) : Prop where
  put_ok : ∀ w id s, (env.PutState w id s).2 = none
  get_put : ∀ w id s, env.GetState (env.PutState w id s).1 id = Except.ok s
  get_put_ne : ∀ w id id1 s, id1 ≠ id →
    env.GetState (env.PutState w id s).1 id1 = env.GetState w id1

/-- The store's content as the list of writes, newest first. Reading an
identifier never written yields the empty state. Hooks named `"deny"` fail,
the others pass; the configuration callbacks leave the peer as it is. -/
def memEnv : Env (List (String × NetState)) where
  GetState w id := Except.ok ((lookup w id).getD NetState.empty)
  PutState w id s := ((id, s) :: w, none)
  RunPreApproveHook h _ _ := if h = "deny" then some (Error.other "denied") else none
  configurePeer _ p := p
  deconfigurePeer _ p := p

/-- The overlay "office" of the end-to-end scenario: manual approval,
automatic activation, no expiry. -/
def office : NetConfig :=
  { ID := "office", Name := "Office", ApproveMode := "MANUAL", ActivateMode := "AUTO",
    ApproveExpiry := 0, ActivateExpiry := 0, PreApproveHooks := [], IPAM := [] }

/-- The peer with public key "pk1". -/
def pk1 : Peer := { PubKey := "pk1", Addresses := [], Metadata := [] }

/-- A manager with the single overlay `c` over the empty store. -/
def freshManager (c : NetConfig) : NetworkManager (List (String × NetState)) :=
  { networks := [c], Store := [], trace := [] }

/-- The state `DeactivatePeer` writes for the key `k` when it loaded `s`. -/
def deactivated (s : NetState) (k : String) : NetState :=
  { s with ActivePeers := s.ActivePeers.delete k,
           ActivationExpirations := s.ActivationExpirations.delete k }

/-- The state `ActivatePeer` writes for the key `k` at time `now` when it
loaded `s` for the overlay `c` and found `peer` under `k` in ApprovedPeers. -/
def activated (c : NetConfig) (now : Time) (s : NetState) (k : String) (peer : Peer) :
    NetState :=
  { s with
    ActivationExpirations :=
      if c.ActivateExpiry ≠ 0 then s.ActivationExpirations.set k (now.Add c.ActivateExpiry)
      else s.ActivationExpirations,
    ActivePeers := s.ActivePeers.set peer.PubKey peer }

/-- The state `ApprovePeer` writes for the key `k` at time `now` when it
loaded `s` for the overlay `c` and the configured peer is `peer`. -/
def approved (c : NetConfig) (now : Time) (s : NetState) (k : String) (peer : Peer) :
    NetState :=
  { s with
    ApprovedPeers := s.ApprovedPeers.set k peer,
    StagedPeers := s.StagedPeers.delete k,
    ApprovalExpirations :=
      if c.ApproveExpiry ≠ 0 then s.ApprovalExpirations.set k (now.Add c.ApproveExpiry)
      else s.ApprovalExpirations }

/-- The state `stagePeer` writes for `client` when it loaded `s`. -/
def staged (s : NetState) (client : Peer) : NetState :=
  { s with StagedPeers := s.StagedPeers.set client.PubKey client }

/-- One call of an exported operation of the network manager, with its
arguments and, where the operation reads the clock, the time of the call. -/
inductive Call where
  | AttemptNetworkRegistration (now : Time) (netID : String) (client : Peer)
  | ApprovePeer (now : Time) (netID pubkey : String)
  | DisapprovePeer (netID pubkey : String)
  | ActivatePeer (now : Time) (netID pubkey : String)
  | DeactivatePeer (netID pubkey : String)
  | ProcessExpirations (now : Time)

/-- The manager after one call, whether the call failed or not. -/
def Call.run {σ : Type} (env : Env σ) (nm : NetworkManager σ) : Call → NetworkManager σ
  | Call.AttemptNetworkRegistration now netID client =>
    (Locksmith.AttemptNetworkRegistration env now nm netID client).1
  | Call.ApprovePeer now netID pubkey => (Locksmith.ApprovePeer env now nm netID pubkey).1
  | Call.DisapprovePeer netID pubkey => (Locksmith.DisapprovePeer env nm netID pubkey).1
  | Call.ActivatePeer now netID pubkey => (Locksmith.ActivatePeer env now nm netID pubkey).1
  | Call.DeactivatePeer netID pubkey => (Locksmith.DeactivatePeer env nm netID pubkey).1
  | Call.ProcessExpirations now => Locksmith.ProcessExpirations env now nm

/-- The manager after a sequence of calls, made in list order. -/
def runCalls {σ : Type} (env : Env σ) (nm : NetworkManager σ) (calls : List Call) :
    NetworkManager σ :=
  calls.foldl (Call.run env) nm

/-- A store whose calls may fail: a write leaves the other identifiers as
they read before, and a read after a write returns the written state or what
was read before the write. -/
structure Env.Sound {σ : Type} (env : Env σ) : Prop where
  put_other : ∀ w id id1 s, id1 ≠ id →
    env.GetState (env.PutState w id s).1 id1 = env.GetState w id1
  put_same : ∀ w id s s1, env.GetState (env.PutState w id s).1 id = Except.ok s1 →
    s1 = s ∨ env.GetState w id = Except.ok s1

/-- The state changes the operations make for the overlay `c0` keep the
property `Q` of overlay states. -/
structure Preserved {σ : Type} (env : Env σ) (c0 : NetConfig) (Q : NetState → Prop) :
    Prop where
  staged : ∀ s client, Q s → Q (staged s client)
  approved : ∀ now s k peer, Q s → s.StagedPeers.get? k = some peer →
    Q (approved c0 now s k (env.configurePeer { toNetConfig := c0, toNetState := s } peer))
  activated : ∀ now s k peer, Q s → s.ApprovedPeers.get? k = some peer →
    Q (activated c0 now s k peer)
  deactivated : ∀ s k, Q s → Q (deactivated s k)
  swept : ∀ now s, Q s → Q (sweepState now s)

/-- What makes `I`, a property of the store, an invariant of the calls: the
overlay `c0` is the one configured under `id0`, `I` survives a write that
puts under `id0` a state with `Q`, a state read under `id0` from a store with
`I` has `Q`, and the operations keep `Q`. -/
structure StoreInvariant {σ : Type} (env : Env σ) (nets : List NetConfig) (id0 : String)
    (c0 : NetConfig) (I : σ → Prop) (Q : NetState → Prop) : Prop where
  configured : findNet nets id0 = some c0
  put : ∀ w id st, I w → (id = id0 → Q st) → I (env.PutState w id st).1
  get : ∀ w s, I w → env.GetState w id0 = Except.ok s → Q s
  steps : Preserved env c0 Q

/-- Number of interface syncs dispatched in a trace. -/
def syncCount (t : List Effect) : Nat :=
  t.countP (fun e => match e with
    | Effect.Sync _ => true
    | _ => false)

/-- A manager with the single overlay `c` whose stored state is `s`. -/
def managerWith (c : NetConfig) (s : NetState) : NetworkManager (List (String × NetState)) :=
  { networks := [c], Store := [(c.ID, s)], trace := [] }

/-- The overlay "auto": automatic approval, manual activation, no expiry. -/
def autoOverlay : NetConfig :=
  { ID := "auto", Name := "Auto", ApproveMode := "AUTO", ActivateMode := "MANUAL",
    ApproveExpiry := 0, ActivateExpiry := 0, PreApproveHooks := [], IPAM := [] }

/-- The peer with public key "pk2". -/
def pk2 : Peer := { PubKey := "pk2", Addresses := [], Metadata := [] }

/-- The overlay "lab": manual approval and activation, approvals expire
after 3600 and activations after 60. -/
def lab : NetConfig :=
  { ID := "lab", Name := "Lab", ApproveMode := "MANUAL", ActivateMode := "MANUAL",
    ApproveExpiry := 3600, ActivateExpiry := 60, PreApproveHooks := [], IPAM := [] }

/-- A state in which "pk1" is staged. -/
def stagedState : NetState :=
  { NetState.empty with StagedPeers := GoMap.empty.set "pk1" pk1 }

/-- A state in which "pk1" is approved and not active. -/
def approvedState : NetState :=
  { NetState.empty with ApprovedPeers := GoMap.empty.set "pk1" pk1 }

/-- A state in which "pk1" is approved with an approval expiry scheduled at
time 4600 (approved at 1000 with an expiry of 3600). -/
def scheduledState : NetState :=
  { NetState.empty with
    ApprovedPeers := GoMap.empty.set "pk1" pk1,
    ApprovalExpirations := GoMap.empty.set "pk1" 4600 }

/-- A state in which "pk1" and "pk2" are staged. -/
def twoStaged : NetState :=
  { NetState.empty with StagedPeers := (GoMap.empty.set "pk1" pk1).set "pk2" pk2 }

/-- A state in which the peer with public key "pk2" is approved under the
key "pk1". -/
def misfiledApproved : NetState :=
  { NetState.empty with ApprovedPeers := GoMap.empty.set "pk1" pk2 }

/-- A state in which "pk1" is approved and active, with an activation expiry
scheduled at time 100. -/
def activeState : NetState :=
  { NetState.empty with
    ApprovedPeers := GoMap.empty.set "pk1" pk1,
    ActivePeers := GoMap.empty.set "pk1" pk1,
    ActivationExpirations := GoMap.empty.set "pk1" 100 }

/-- The overlay an effect concerns. -/
def Effect.netID : Effect → String
  | Effect.GetState id => id
  | Effect.PutState id _ => id
  | Effect.RunPreApproveHook _ netID _ => netID
  | Effect.Sync net => net.ID

/-- The store after the writes recorded in a trace, made in order. -/
def replay {σ : Type} (env : Env σ) (w : σ) (t : List Effect) : σ :=
  t.foldl (fun a e => match e with
    | Effect.PutState id st => (env.PutState a id st).1
    | _ => a) w

/-- The manager `nm1` comes from `nm` by effects that all concern the
overlay `id`: the configuration is the same, the trace has grown by these
effects, and the store has changed by the writes among them. -/
def Extends {σ : Type} (env : Env σ) (id : String) (nm nm1 : NetworkManager σ) : Prop :=
  nm1.networks = nm.networks ∧
  ∃ t : List Effect, nm1.trace = nm.trace ++ t ∧ nm1.Store = replay env nm.Store t ∧
    ∀ e ∈ t, e.netID = id

/-- Number of writes under the identifier `id` in a trace. -/
def putCount (id : String) (t : List Effect) : Nat :=
  t.countP (fun e => match e with
    | Effect.PutState i _ => decide (i = id)
    | _ => false)

/-- The overlay "gated": manual approval and activation, with the
pre-approval hooks "allow", "deny" and "audit", in this order. -/
def gated : NetConfig :=
  { ID := "gated", Name := "Gated", ApproveMode := "MANUAL", ActivateMode := "MANUAL",
    ApproveExpiry := 0, ActivateExpiry := 0, PreApproveHooks := ["allow", "deny", "audit"],
    IPAM := [] }

/-- The configuration callback keeps the public key of the peer it is given
(section 3: the public key is the identity of a peer). -/
def Env.KeepsKey {σ : Type} (env : Env σ) : Prop :=
  ∀ net p, (env.configurePeer net p).PubKey = p.PubKey

/-- Every staged and every approved peer is stored under its own public
key. -/
def Keyed (s : NetState) : Prop :=
  (∀ k p, s.StagedPeers.get? k = some p → p.PubKey = k) ∧
  (∀ k p, s.ApprovedPeers.get? k = some p → p.PubKey = k)

/-- Every key of ActivePeers is a key of ApprovedPeers. -/
def ActiveApproved (s : NetState) : Prop :=
  ∀ k p, s.ActivePeers.get? k = some p → ∃ q, s.ApprovedPeers.get? k = some q

/-- The store of `memEnv` with a configuration callback that files the peer
under the public key "rekeyed". -/
def rekeyEnv : Env (List (String × NetState)) :=
  { memEnv with configurePeer := fun _ p => { p with PubKey := "rekeyed" } }

/-- The overlay "all": automatic approval and activation, approvals expire
after 3600 and activations after 60. -/
def autoAll : NetConfig :=
  { ID := "all", Name := "All", ApproveMode := "auto", ActivateMode := "Auto",
    ApproveExpiry := 3600, ActivateExpiry := 60, PreApproveHooks := [], IPAM := [] }

/-! ## Lemmas on maps -/

theorem lookup_filter_self {α : Type} (l : List (String × α)) (k : String) :
    lookup (l.filter (fun e => !decide (e.1 = k))) k = none := by
  induction l with
  | nil => rfl
  | cons e rest ih =>
    by_cases h : e.1 = k
    · simp [List.filter, h, ih]
    · simp [List.filter, h, lookup, ih]

theorem lookup_filter_ne {α : Type} (l : List (String × α)) {k k1 : String} (h : k1 ≠ k) :
    lookup (l.filter (fun e => !decide (e.1 = k))) k1 = lookup l k1 := by
  induction l with
  | nil => rfl
  | cons e rest ih =>
    by_cases hk : e.1 = k
    · have h1 : ¬ e.1 = k1 := fun h1 => h (h1.symm.trans hk)
      rw [List.filter_cons_of_neg (by simp [hk]), ih]
      simp only [lookup, h1, if_false]
    · rw [List.filter_cons_of_pos (by simp [hk])]
      simp only [lookup, ih]

theorem lookup_eq_some_iff {α : Type} (l : List (String × α)) (hl : (l.map Prod.fst).Nodup)
    (k : String) (v : α) : lookup l k = some v ↔ (k, v) ∈ l := by
  induction l with
  | nil => simp [lookup]
  | cons e rest ih =>
    simp only [List.map_cons, List.nodup_cons] at hl
    by_cases h : e.1 = k
    · simp only [lookup, h, if_true, List.mem_cons]
      constructor
      · intro hv
        left
        cases e
        simp at hv h
        simp [hv, h]
      · rintro (hv | hv)
        · rw [← hv]
        · exfalso
          apply hl.1
          rw [h]
          exact List.mem_map.2 ⟨(k, v), hv, rfl⟩
    · simp only [lookup, h, if_false, List.mem_cons, ih hl.2]
      constructor
      · exact Or.inr
      · rintro (hv | hv)
        · exfalso
          apply h
          rw [← hv]
        · exact hv

namespace GoMap

variable {α : Type}

theorem ext_entries {a b : GoMap α} (h : a.entries = b.entries) : a = b := by
  cases a; cases b; cases h; rfl

theorem get?_empty (k : String) : (GoMap.empty : GoMap α).get? k = none := rfl

theorem get?_set_self (m : GoMap α) (k : String) (v : α) : (m.set k v).get? k = some v := by
  simp [get?, set, lookup]

theorem get?_set_ne (m : GoMap α) {k k1 : String} (v : α) (h : k1 ≠ k) :
    (m.set k v).get? k1 = m.get? k1 := by
  have h2 : k ≠ k1 := fun e => h e.symm
  simp [get?, set, lookup, h2, delete, lookup_filter_ne _ h]

theorem get?_delete_self (m : GoMap α) (k : String) : (m.delete k).get? k = none := by
  simp [get?, delete, lookup_filter_self]

theorem get?_delete_ne (m : GoMap α) {k k1 : String} (h : k1 ≠ k) :
    (m.delete k).get? k1 = m.get? k1 := by
  simp [get?, delete, lookup_filter_ne _ h]

theorem delete_delete (m : GoMap α) (k : String) : (m.delete k).delete k = m.delete k := by
  apply ext_entries
  simp [delete, List.filter_filter]

theorem get?_eq_some_iff (m : GoMap α) (k : String) (v : α) :
    m.get? k = some v ↔ (k, v) ∈ m.entries :=
  lookup_eq_some_iff m.entries m.nodup k v

theorem foldl_delete_entries (drop : String → α → Bool) (l : List (String × α)) (acc : GoMap α) :
    (l.foldl (fun acc e => if drop e.1 e.2 then acc.delete e.1 else acc) acc).entries =
      acc.entries.filter (fun e => l.all (fun d => !(drop d.1 d.2) || !decide (d.1 = e.1))) := by
  induction l generalizing acc with
  | nil => simp
  | cons d rest ih =>
    rw [List.foldl_cons, ih]
    by_cases hd : drop d.1 d.2 = true
    · simp only [hd, if_true, delete, List.filter_filter]
      apply List.filter_congr
      intro e _
      have : decide (e.1 = d.1) = decide (d.1 = e.1) := by
        by_cases h : e.1 = d.1
        · simp [h]
        · have h2 : ¬ d.1 = e.1 := fun h3 => h h3.symm
          simp [h, h2]
      simp [hd, this, Bool.and_comm]
    · simp [hd]

/-- The range loop keeps exactly the entries that are not dropped. -/
theorem rangeDelete_entries (m : GoMap α) (drop : String → α → Bool) :
    (m.rangeDelete drop).entries = m.entries.filter (fun e => !(drop e.1 e.2)) := by
  unfold rangeDelete
  rw [foldl_delete_entries]
  apply List.filter_congr
  intro e he
  by_cases hd : drop e.1 e.2 = true
  · simp only [hd, Bool.not_true]
    apply List.all_eq_false.2
    exact ⟨e, he, by simp [hd]⟩
  · simp only [hd, Bool.not_false]
    apply List.all_eq_true.2
    intro d hdm
    by_cases hdd : drop d.1 d.2 = true
    · have hne : d.1 ≠ e.1 := by
        intro heq
        have := List.inj_on_of_nodup_map m.nodup hdm he heq
        rw [this] at hdd
        exact hd hdd
      simp [hne]
    · simp [hdd]

theorem get?_rangeDelete (m : GoMap α) (drop : String → α → Bool) (k : String) (v : α) :
    (m.rangeDelete drop).get? k = some v ↔ m.get? k = some v ∧ drop k v = false := by
  rw [get?_eq_some_iff, get?_eq_some_iff, rangeDelete_entries, List.mem_filter]
  simp

theorem rangeDelete_empty (drop : String → α → Bool) :
    (GoMap.empty : GoMap α).rangeDelete drop = GoMap.empty := rfl

theorem rangeDelete_idem (m : GoMap α) (drop : String → α → Bool) :
    (m.rangeDelete drop).rangeDelete drop = m.rangeDelete drop := by
  apply ext_entries
  rw [rangeDelete_entries, rangeDelete_entries, List.filter_filter]
  simp

end GoMap

/-! ## Lemmas on the operations -/

section OperationLemmas

variable {σ : Type}

theorem memEnv_reliable : memEnv.Reliable where
  put_ok := fun _ _ _ => rfl
  get_put := fun w id s => by simp [memEnv, lookup]
  get_put_ne := fun w id id1 s h => by
    have h2 : ¬ id = id1 := fun e => h e.symm
    simp [memEnv, lookup, h2]

theorem findNet_ID {l : List NetConfig} {id : String} {c : NetConfig}
    (h : findNet l id = some c) : c.ID = id := by
  induction l with
  | nil => simp [findNet] at h
  | cons d rest ih =>
    by_cases hd : d.ID = id
    · simp [findNet, hd] at h
      rw [← h]
      exact hd
    · simp [findNet, hd] at h
      exact ih h

theorem findNet_mem {l : List NetConfig} {id : String} {c : NetConfig}
    (h : findNet l id = some c) : c ∈ l := by
  induction l with
  | nil => simp [findNet] at h
  | cons d rest ih =>
    by_cases hd : d.ID = id
    · simp [findNet, hd] at h
      simp [h]
    · simp [findNet, hd] at h
      exact List.mem_cons_of_mem _ (ih h)

theorem findNet_eq_none_iff (l : List NetConfig) (id : String) :
    findNet l id = none ↔ ∀ c ∈ l, c.ID ≠ id := by
  induction l with
  | nil => simp [findNet]
  | cons d rest ih =>
    by_cases hd : d.ID = id
    · simp [findNet, hd]
    · simp [findNet, hd, ih]

theorem findNet_isSome_of_mem {l : List NetConfig} {c : NetConfig} (h : c ∈ l) :
    ∃ d, findNet l c.ID = some d := by
  cases hf : findNet l c.ID with
  | some d => exact ⟨d, rfl⟩
  | none => exact absurd rfl ((findNet_eq_none_iff l c.ID).1 hf c h)

theorem findNet_of_unique {l : List NetConfig} {c : NetConfig} (hc : c ∈ l)
    (hu : ∀ d ∈ l, d.ID = c.ID → d = c) : findNet l c.ID = some c := by
  obtain ⟨d, hd⟩ := findNet_isSome_of_mem hc
  rw [hd, hu d (findNet_mem hd) (findNet_ID hd)]

theorem GetNet_unknown (env : Env σ) (nm : NetworkManager σ) {id : String}
    (h : findNet nm.networks id = none) :
    GetNet env nm id = (nm, Except.error Error.ErrUnknownNetwork) := by
  simp [GetNet, h]

theorem GetNet_known (env : Env σ) (nm : NetworkManager σ) {id : String} {c : NetConfig}
    {s : NetState} (hf : findNet nm.networks id = some c)
    (hg : env.GetState nm.Store id = Except.ok s) :
    GetNet env nm id =
      (nm.emit (Effect.GetState id), Except.ok { toNetConfig := c, toNetState := s }) := by
  have hid := findNet_ID hf
  simp [GetNet, hf, GetState, hid, hg]

theorem GetNet_failed (env : Env σ) (nm : NetworkManager σ) {id : String} {c : NetConfig}
    {err : Error} (hf : findNet nm.networks id = some c)
    (hg : env.GetState nm.Store id = Except.error err) :
    GetNet env nm id = (nm.emit (Effect.GetState id), Except.error err) := by
  have hid := findNet_ID hf
  simp [GetNet, hf, GetState, hid, hg]

theorem DeactivatePeer_reliable (env : Env σ) (hr : env.Reliable) (nm : NetworkManager σ)
    {id : String} (k : String) {c : NetConfig} {s : NetState}
    (hf : findNet nm.networks id = some c)
    (hg : env.GetState nm.Store id = Except.ok s) :
    (DeactivatePeer env nm id k).2 = none ∧
    (DeactivatePeer env nm id k).1.networks = nm.networks ∧
    (DeactivatePeer env nm id k).1.Store = (env.PutState nm.Store id (deactivated s k)).1 ∧
    (DeactivatePeer env nm id k).1.trace =
      nm.trace ++ [Effect.GetState id] ++
        (if s.ActivePeers.len ≠ (s.ActivePeers.delete k).len then
          [Effect.Sync { toNetConfig := c, toNetState := deactivated s k }] else []) ++
        [Effect.PutState id (deactivated s k)] := by
  have hid := findNet_ID hf
  simp only [DeactivatePeer, GetNet_known env nm hf hg, StoreNet, PutState, hid, hr.put_ok,
    deactivated]
  refine ⟨trivial, ?_, ?_, ?_⟩
  · split <;> rfl
  · split <;> rfl
  · split <;> simp [NetworkManager.emit]

theorem ActivatePeer_reliable (env : Env σ) (hr : env.Reliable) (now : Time)
    (nm : NetworkManager σ) {id k : String} {c : NetConfig} {s : NetState} {peer : Peer}
    (hf : findNet nm.networks id = some c)
    (hg : env.GetState nm.Store id = Except.ok s)
    (hk : s.ApprovedPeers.get? k = some peer) :
    (ActivatePeer env now nm id k).2 = none ∧
    (ActivatePeer env now nm id k).1.networks = nm.networks ∧
    (ActivatePeer env now nm id k).1.Store =
      (env.PutState nm.Store id (activated c now s k peer)).1 ∧
    (ActivatePeer env now nm id k).1.trace =
      nm.trace ++ [Effect.GetState id,
        Effect.Sync { toNetConfig := c, toNetState := activated c now s k peer },
        Effect.PutState id (activated c now s k peer)] := by
  have hid := findNet_ID hf
  by_cases he : c.ActivateExpiry = 0
  · simp [ActivatePeer, GetNet_known env nm hf hg, StoreNet, PutState, hid, hr.put_ok,
      activated, hk, he, NetworkManager.emit]
  · simp [ActivatePeer, GetNet_known env nm hf hg, StoreNet, PutState, hid, hr.put_ok,
      activated, hk, he, NetworkManager.emit]

theorem ApprovePeer_store (env : Env σ) (hr : env.Reliable) (now : Time)
    (nm : NetworkManager σ) {id k : String} {c : NetConfig} {s : NetState} {peer : Peer}
    (hf : findNet nm.networks id = some c)
    (hg : env.GetState nm.Store id = Except.ok s)
    (hk : s.StagedPeers.get? k = some peer) :
    ApprovePeer env now nm id k =
      if ToUpper c.ActivateMode = "AUTO" then
        ActivatePeer env now
          { networks := nm.networks,
            Store := (env.PutState nm.Store id
              (approved c now s k (env.configurePeer { toNetConfig := c, toNetState := s } peer))).1,
            trace := nm.trace ++ [Effect.GetState id,
              Effect.PutState id
                (approved c now s k
                  (env.configurePeer { toNetConfig := c, toNetState := s } peer))] }
          id k
      else
        ({ networks := nm.networks,
           Store := (env.PutState nm.Store id
              (approved c now s k (env.configurePeer { toNetConfig := c, toNetState := s } peer))).1,
           trace := nm.trace ++ [Effect.GetState id,
              Effect.PutState id
                (approved c now s k
                  (env.configurePeer { toNetConfig := c, toNetState := s } peer))] },
          none) := by
  have hid := findNet_ID hf
  by_cases he : c.ApproveExpiry = 0
  · simp [ApprovePeer, GetNet_known env nm hf hg, StoreNet, PutState, hid, hr.put_ok,
      approved, hk, he, NetworkManager.emit]
  · simp [ApprovePeer, GetNet_known env nm hf hg, StoreNet, PutState, hid, hr.put_ok,
      approved, hk, he, NetworkManager.emit]

theorem runHooks_pass (env : Env σ) (id : String) (client : Peer) (hooks : List String)
    (hh : ∀ h ∈ hooks, env.RunPreApproveHook h id client = none) (nm : NetworkManager σ) :
    (runHooks env nm id client hooks).2 = none ∧
    (runHooks env nm id client hooks).1.networks = nm.networks ∧
    (runHooks env nm id client hooks).1.Store = nm.Store := by
  induction hooks generalizing nm with
  | nil => simp [runHooks]
  | cons h rest ih =>
    have h1 := hh h (List.mem_cons_self _ _)
    have h2 := ih (fun x hx => hh x (List.mem_cons_of_mem _ hx))
      (nm.emit (Effect.RunPreApproveHook h id client))
    simp only [runHooks, h1]
    exact h2

theorem ApprovePeer_reliable (env : Env σ) (hr : env.Reliable) (now : Time)
    (nm : NetworkManager σ) {id k : String} {c : NetConfig} {s : NetState} {peer : Peer}
    (hf : findNet nm.networks id = some c)
    (hg : env.GetState nm.Store id = Except.ok s)
    (hk : s.StagedPeers.get? k = some peer) :
    (ApprovePeer env now nm id k).2 = none ∧
    (ApprovePeer env now nm id k).1.networks = nm.networks := by
  rw [ApprovePeer_store env hr now nm hf hg hk]
  by_cases hm : ToUpper c.ActivateMode = "AUTO"
  · rw [if_pos hm]
    obtain ⟨h1, h2, _, _⟩ := ActivatePeer_reliable env hr now
      { networks := nm.networks,
        Store := (env.PutState nm.Store id
          (approved c now s k (env.configurePeer { toNetConfig := c, toNetState := s } peer))).1,
        trace := nm.trace ++ [Effect.GetState id,
          Effect.PutState id
            (approved c now s k
              (env.configurePeer { toNetConfig := c, toNetState := s } peer))] }
      hf (hr.get_put _ _ _) (GoMap.get?_set_self _ _ _)
    exact ⟨h1, h2⟩
  · rw [if_neg hm]
    exact ⟨rfl, rfl⟩

theorem stagePeer_reliable (env : Env σ) (hr : env.Reliable) (now : Time)
    (nm : NetworkManager σ) {id : String} {c : NetConfig} {s : NetState} (client : Peer)
    (hf : findNet nm.networks id = some c)
    (hg : env.GetState nm.Store id = Except.ok s) :
    (stagePeer env now nm id client).2 = none ∧
    (stagePeer env now nm id client).1.networks = nm.networks := by
  have hid := findNet_ID hf
  simp only [stagePeer, GetNet_known env nm hf hg, StoreNet, PutState, hid, hr.put_ok]
  by_cases ha : ToUpper c.ApproveMode = "AUTO"
  · rw [if_pos ha]
    refine @ApprovePeer_reliable σ env hr now _ id client.PubKey c _ client ?_
      (hr.get_put _ _ _) ?_
    · exact hf
    · exact GoMap.get?_set_self _ _ _
  · rw [if_neg ha]
    exact ⟨rfl, rfl⟩

/-- With a reliable store and passing hooks, a registration returns without
error and the state stored afterwards is the state stored before the call:
the last write of `AttemptNetworkRegistration` puts back the state it loaded
before staging. -/
theorem AttemptNetworkRegistration_restores (env : Env σ) (hr : env.Reliable) (now : Time)
    (nm : NetworkManager σ) {id : String} {c : NetConfig} {s : NetState} (client : Peer)
    (hf : findNet nm.networks id = some c)
    (hg : env.GetState nm.Store id = Except.ok s)
    (hh : ∀ h ∈ c.PreApproveHooks, env.RunPreApproveHook h id client = none) :
    (AttemptNetworkRegistration env now nm id client).2 = none ∧
    (AttemptNetworkRegistration env now nm id client).1.networks = nm.networks ∧
    env.GetState (AttemptNetworkRegistration env now nm id client).1.Store id = Except.ok s := by
  have hid := findNet_ID hf
  obtain ⟨r1, r2, r3⟩ := runHooks_pass env id client c.PreApproveHooks hh
    (nm.emit (Effect.GetState id))
  simp only [AttemptNetworkRegistration, GetNet_known env nm hf hg]
  rcases hrun : runHooks env (nm.emit (Effect.GetState id)) id client c.PreApproveHooks with
    ⟨nm2, e2⟩
  rw [hrun] at r1 r2 r3
  simp only at r1 r2 r3
  subst r1
  have hf2 : findNet nm2.networks id = some c := by
    rw [r2]
    exact hf
  have hg2 : env.GetState nm2.Store id = Except.ok s := by
    rw [r3]
    exact hg
  obtain ⟨t1, t2⟩ := stagePeer_reliable env hr now nm2 client hf2 hg2
  dsimp only
  rcases hst : stagePeer env now nm2 id client with ⟨nm3, e3⟩
  rw [hst] at t1 t2
  simp only at t1 t2
  subst t1
  simp only [StoreNet, PutState, hid, hr.put_ok, hr.get_put, t2, r2]
  exact ⟨trivial, rfl, trivial⟩

/-! ### The operations as sequences of store calls -/

theorem GetNet_cases (env : Env σ) (nm : NetworkManager σ) (id : String) :
    GetNet env nm id = (nm, Except.error Error.ErrUnknownNetwork) ∨
    ∃ c, findNet nm.networks id = some c ∧
      ((∃ err, GetNet env nm id = (nm.emit (Effect.GetState id), Except.error err)) ∨
        ∃ s, env.GetState nm.Store id = Except.ok s ∧
          GetNet env nm id =
            (nm.emit (Effect.GetState id), Except.ok { toNetConfig := c, toNetState := s })) := by
  cases hf : findNet nm.networks id with
  | none => exact Or.inl (GetNet_unknown env nm hf)
  | some c =>
    refine Or.inr ⟨c, rfl, ?_⟩
    cases hg : env.GetState nm.Store id with
    | error err => exact Or.inl ⟨err, GetNet_failed env nm hf hg⟩
    | ok s => exact Or.inr ⟨s, rfl, GetNet_known env nm hf hg⟩

theorem ActivatePeer_eq (env : Env σ) (now : Time) (nm : NetworkManager σ) {id k : String}
    {c : NetConfig} {s : NetState} {peer : Peer}
    (hf : findNet nm.networks id = some c)
    (hg : env.GetState nm.Store id = Except.ok s)
    (hk : s.ApprovedPeers.get? k = some peer) :
    ActivatePeer env now nm id k =
      PutState env
        ((nm.emit (Effect.GetState id)).emit
          (Effect.Sync { toNetConfig := c, toNetState := activated c now s k peer }))
        id (activated c now s k peer) := by
  have hid := findNet_ID hf
  by_cases he : c.ActivateExpiry = 0
  · simp [ActivatePeer, GetNet_known env nm hf hg, StoreNet, hid, activated, hk, he]
  · simp [ActivatePeer, GetNet_known env nm hf hg, StoreNet, hid, activated, hk, he]

theorem ApprovePeer_eq (env : Env σ) (now : Time) (nm : NetworkManager σ) {id k : String}
    {c : NetConfig} {s : NetState} {peer : Peer}
    (hf : findNet nm.networks id = some c)
    (hg : env.GetState nm.Store id = Except.ok s)
    (hk : s.StagedPeers.get? k = some peer) :
    ApprovePeer env now nm id k =
      match PutState env (nm.emit (Effect.GetState id)) id
          (approved c now s k (env.configurePeer { toNetConfig := c, toNetState := s } peer)) with
      | (nm2, some err) => (nm2, some err)
      | (nm2, none) =>
        if ToUpper c.ActivateMode = "AUTO" then ActivatePeer env now nm2 id k else (nm2, none) := by
  have hid := findNet_ID hf
  by_cases he : c.ApproveExpiry = 0
  · simp [ApprovePeer, GetNet_known env nm hf hg, StoreNet, hid, approved, hk, he]
  · simp [ApprovePeer, GetNet_known env nm hf hg, StoreNet, hid, approved, hk, he]

theorem DeactivatePeer_eq (env : Env σ) (nm : NetworkManager σ) {id : String} (k : String)
    {c : NetConfig} {s : NetState}
    (hf : findNet nm.networks id = some c)
    (hg : env.GetState nm.Store id = Except.ok s) :
    DeactivatePeer env nm id k =
      PutState env
        (if s.ActivePeers.len ≠ (s.ActivePeers.delete k).len then
          (nm.emit (Effect.GetState id)).emit
            (Effect.Sync { toNetConfig := c, toNetState := deactivated s k })
         else nm.emit (Effect.GetState id))
        id (deactivated s k) := by
  have hid := findNet_ID hf
  simp [DeactivatePeer, GetNet_known env nm hf hg, StoreNet, hid, deactivated]

theorem DisapprovePeer_eq (env : Env σ) (nm : NetworkManager σ) {id k : String}
    {c : NetConfig} {s : NetState} {peer : Peer}
    (hf : findNet nm.networks id = some c)
    (hg : env.GetState nm.Store id = Except.ok s)
    (hk : s.ApprovedPeers.get? k = some peer) :
    DisapprovePeer env nm id k =
      match PutState env (nm.emit (Effect.GetState id)) id s with
      | (nm2, some err) => (nm2, some err)
      | (nm2, none) => DeactivatePeer env nm2 id k := by
  have hid := findNet_ID hf
  simp [DisapprovePeer, GetNet_known env nm hf hg, StoreNet, hid, hk]

theorem stagePeer_eq (env : Env σ) (now : Time) (nm : NetworkManager σ) {id : String}
    (client : Peer) {c : NetConfig} {s : NetState}
    (hf : findNet nm.networks id = some c)
    (hg : env.GetState nm.Store id = Except.ok s) :
    stagePeer env now nm id client =
      match PutState env (nm.emit (Effect.GetState id)) id (staged s client) with
      | (nm2, some err) => (nm2, some err)
      | (nm2, none) =>
        if ToUpper c.ApproveMode = "AUTO" then ApprovePeer env now nm2 id client.PubKey
        else (nm2, none) := by
  have hid := findNet_ID hf
  simp [stagePeer, GetNet_known env nm hf hg, StoreNet, hid, staged]

end OperationLemmas

/-! ## The expiration sweep -/

section Sweep

variable {σ : Type}

theorem Env.Reliable.sound {env : Env σ} (hr : env.Reliable) : env.Sound where
  put_other := fun w id id1 s h => hr.get_put_ne w id id1 s h
  put_same := fun w id s s1 h => by
    rw [hr.get_put] at h
    cases h
    exact Or.inl rfl

theorem sweepState_idem (now : Time) (s : NetState) :
    sweepState now (sweepState now s) = sweepState now s := by
  simp [sweepState, GoMap.rangeDelete_idem]

theorem sweepNetwork_stored (env : Env σ) (hr : env.Reliable) (now : Time)
    (nm : NetworkManager σ) (c : NetConfig) (id : String) (s : NetState)
    (hg : env.GetState nm.Store id = Except.ok s) :
    env.GetState (sweepNetwork env now nm c).Store id =
      Except.ok (if c.ID = id then sweepState now s else s) := by
  by_cases hid : c.ID = id
  · subst hid
    simp only [sweepNetwork, GetState, hg, PutState, if_true]
    exact hr.get_put _ _ _
  · cases hc : env.GetState nm.Store c.ID with
    | error err =>
      simp only [sweepNetwork, GetState, hc, if_neg hid]
      exact hg
    | ok s2 =>
      simp only [sweepNetwork, GetState, hc, PutState, if_neg hid]
      rw [hr.get_put_ne _ _ _ _ (fun e => hid e.symm)]
      exact hg

theorem foldl_sweepNetwork_stored (env : Env σ) (hr : env.Reliable) (now : Time)
    (l : List NetConfig) (nm : NetworkManager σ) (id : String) (s : NetState)
    (hg : env.GetState nm.Store id = Except.ok s) :
    env.GetState (l.foldl (sweepNetwork env now) nm).Store id =
      Except.ok (if ∃ c ∈ l, c.ID = id then sweepState now s else s) := by
  induction l generalizing nm s with
  | nil => simpa using hg
  | cons c rest ih =>
    rw [List.foldl_cons, ih _ _ (sweepNetwork_stored env hr now nm c id s hg)]
    by_cases hid : c.ID = id
    · have h1 : ∃ d ∈ c :: rest, d.ID = id := ⟨c, List.mem_cons_self _ _, hid⟩
      simp only [hid, if_true, sweepState_idem, ite_self, h1]
    · by_cases hr2 : ∃ d ∈ rest, d.ID = id
      · have h1 : ∃ d ∈ c :: rest, d.ID = id := by
          obtain ⟨d, hd, hd2⟩ := hr2
          exact ⟨d, List.mem_cons_of_mem _ hd, hd2⟩
        simp only [hid, if_false, hr2, h1, if_true]
      · have h1 : ¬ ∃ d ∈ c :: rest, d.ID = id := by
          rintro ⟨d, hd, hd2⟩
          rcases List.mem_cons.1 hd with h3 | h3
          · exact hid (h3 ▸ hd2)
          · exact hr2 ⟨d, h3, hd2⟩
        simp only [hid, if_false, hr2, h1]

/-- With a reliable store, the sweep replaces the stored state of every
configured overlay by its swept state. -/
theorem ProcessExpirations_stored (env : Env σ) (hr : env.Reliable) (now : Time)
    (nm : NetworkManager σ) {c : NetConfig} {s : NetState} (hc : c ∈ nm.networks)
    (hg : env.GetState nm.Store c.ID = Except.ok s) :
    env.GetState (ProcessExpirations env now nm).Store c.ID = Except.ok (sweepState now s) := by
  unfold ProcessExpirations
  rw [foldl_sweepNetwork_stored env hr now nm.networks nm c.ID s hg]
  have h1 : ∃ d ∈ nm.networks, d.ID = c.ID := ⟨c, hc, rfl⟩
  simp only [h1, if_true]

end Sweep

/-! ## Invariants of call sequences -/

section Invariants

variable {σ : Type} {env : Env σ} {nets : List NetConfig} {id0 : String} {c0 : NetConfig}
  {I : σ → Prop} {Q : NetState → Prop}

theorem StoreInvariant.of_sound (hs : env.Sound) (hf : findNet nets id0 = some c0)
    (hp : Preserved env c0 Q) :
    StoreInvariant env nets id0 c0 (fun w => ∀ s, env.GetState w id0 = Except.ok s → Q s) Q where
  configured := hf
  put := fun w id st hi hq s1 h1 => by
    by_cases hid : id = id0
    · subst hid
      rcases hs.put_same w id st s1 h1 with h2 | h2
      · rw [h2]
        exact hq rfl
      · exact hi s1 h2
    · rw [hs.put_other w id id0 st (fun e => hid e.symm)] at h1
      exact hi s1 h1
  get := fun _ s hi h1 => hi s h1
  steps := hp

theorem StoreInvariant.of_reliable (hr : env.Reliable) (hf : findNet nets id0 = some c0)
    (hp : Preserved env c0 Q) :
    StoreInvariant env nets id0 c0 (fun w => ∃ s, env.GetState w id0 = Except.ok s ∧ Q s) Q where
  configured := hf
  put := fun w id st hi hq => by
    by_cases hid : id = id0
    · subst hid
      exact ⟨st, hr.get_put _ _ _, hq rfl⟩
    · rw [hr.get_put_ne w id id0 st (fun e => hid e.symm)]
      exact hi
  get := fun _ s hi h1 => by
    obtain ⟨s2, h2, h3⟩ := hi
    rw [h1] at h2
    cases h2
    exact h3
  steps := hp

theorem PutState_inv (h : StoreInvariant env nets id0 c0 I Q) (nm : NetworkManager σ)
    (id : String) (st : NetState) (hn : nm.networks = nets) (hi : I nm.Store)
    (hq : id = id0 → Q st) :
    (PutState env nm id st).1.networks = nets ∧ I (PutState env nm id st).1.Store :=
  ⟨hn, h.put _ _ _ hi hq⟩

theorem loaded_inv (h : StoreInvariant env nets id0 c0 I Q) (nm : NetworkManager σ)
    {id : String} {c : NetConfig} {s : NetState} (hn : nm.networks = nets) (hi : I nm.Store)
    (hf : findNet nm.networks id = some c) (hg : env.GetState nm.Store id = Except.ok s)
    (hid : id = id0) : c = c0 ∧ Q s := by
  subst hid
  rw [hn, h.configured] at hf
  cases hf
  exact ⟨rfl, h.get _ _ hi hg⟩

theorem ActivatePeer_inv (h : StoreInvariant env nets id0 c0 I Q) (now : Time)
    (nm : NetworkManager σ) (id k : String) (hn : nm.networks = nets) (hi : I nm.Store) :
    (ActivatePeer env now nm id k).1.networks = nets ∧
    I (ActivatePeer env now nm id k).1.Store := by
  rcases GetNet_cases env nm id with hgn | ⟨c, hf, ⟨err, hgn⟩ | ⟨s, hg, hgn⟩⟩
  · simp only [ActivatePeer, hgn]
    exact ⟨hn, hi⟩
  · simp only [ActivatePeer, hgn]
    exact ⟨hn, hi⟩
  · cases hk : s.ApprovedPeers.get? k with
    | none =>
      simp only [ActivatePeer, hgn, hk]
      exact ⟨hn, hi⟩
    | some peer =>
      rw [ActivatePeer_eq env now nm hf hg hk]
      refine PutState_inv h _ _ _ hn hi (fun hid => ?_)
      obtain ⟨hc, hq⟩ := loaded_inv h nm hn hi hf hg hid
      rw [hc]
      exact h.steps.activated now s k peer hq hk

theorem ApprovePeer_inv (h : StoreInvariant env nets id0 c0 I Q) (now : Time)
    (nm : NetworkManager σ) (id k : String) (hn : nm.networks = nets) (hi : I nm.Store) :
    (ApprovePeer env now nm id k).1.networks = nets ∧
    I (ApprovePeer env now nm id k).1.Store := by
  rcases GetNet_cases env nm id with hgn | ⟨c, hf, ⟨err, hgn⟩ | ⟨s, hg, hgn⟩⟩
  · simp only [ApprovePeer, hgn]
    exact ⟨hn, hi⟩
  · simp only [ApprovePeer, hgn]
    exact ⟨hn, hi⟩
  · cases hk : s.StagedPeers.get? k with
    | none =>
      simp only [ApprovePeer, hgn, hk]
      exact ⟨hn, hi⟩
    | some peer =>
      rw [ApprovePeer_eq env now nm hf hg hk]
      have hp := PutState_inv h (nm.emit (Effect.GetState id)) id
        (approved c now s k (env.configurePeer { toNetConfig := c, toNetState := s } peer))
        hn hi (fun hid => by
          obtain ⟨hc, hq⟩ := loaded_inv h nm hn hi hf hg hid
          rw [hc]
          exact h.steps.approved now s k peer hq hk)
      rcases hput : PutState env (nm.emit (Effect.GetState id)) id
        (approved c now s k (env.configurePeer { toNetConfig := c, toNetState := s } peer))
        with ⟨nm2, e2⟩
      rw [hput] at hp
      cases e2 with
      | some err => exact hp
      | none =>
        dsimp only
        split
        · exact ActivatePeer_inv h now nm2 id k hp.1 hp.2
        · exact hp

theorem DeactivatePeer_inv (h : StoreInvariant env nets id0 c0 I Q)
    (nm : NetworkManager σ) (id k : String) (hn : nm.networks = nets) (hi : I nm.Store) :
    (DeactivatePeer env nm id k).1.networks = nets ∧
    I (DeactivatePeer env nm id k).1.Store := by
  rcases GetNet_cases env nm id with hgn | ⟨c, hf, ⟨err, hgn⟩ | ⟨s, hg, hgn⟩⟩
  · simp only [DeactivatePeer, hgn]
    exact ⟨hn, hi⟩
  · simp only [DeactivatePeer, hgn]
    exact ⟨hn, hi⟩
  · rw [DeactivatePeer_eq env nm k hf hg]
    refine PutState_inv h _ _ _ ?_ ?_ (fun hid => ?_)
    · split <;> exact hn
    · split <;> exact hi
    · exact h.steps.deactivated s k (loaded_inv h nm hn hi hf hg hid).2

theorem DisapprovePeer_inv (h : StoreInvariant env nets id0 c0 I Q)
    (nm : NetworkManager σ) (id k : String) (hn : nm.networks = nets) (hi : I nm.Store) :
    (DisapprovePeer env nm id k).1.networks = nets ∧
    I (DisapprovePeer env nm id k).1.Store := by
  rcases GetNet_cases env nm id with hgn | ⟨c, hf, ⟨err, hgn⟩ | ⟨s, hg, hgn⟩⟩
  · simp only [DisapprovePeer, hgn]
    exact ⟨hn, hi⟩
  · simp only [DisapprovePeer, hgn]
    exact ⟨hn, hi⟩
  · cases hk : s.ApprovedPeers.get? k with
    | none =>
      simp only [DisapprovePeer, hgn, hk]
      exact ⟨hn, hi⟩
    | some peer =>
      rw [DisapprovePeer_eq env nm hf hg hk]
      have hp := PutState_inv h (nm.emit (Effect.GetState id)) id s hn hi
        (fun hid => (loaded_inv h nm hn hi hf hg hid).2)
      rcases hput : PutState env (nm.emit (Effect.GetState id)) id s with ⟨nm2, e2⟩
      rw [hput] at hp
      cases e2 with
      | some err => exact hp
      | none => exact DeactivatePeer_inv h nm2 id k hp.1 hp.2

theorem stagePeer_inv (h : StoreInvariant env nets id0 c0 I Q) (now : Time)
    (nm : NetworkManager σ) (id : String) (client : Peer) (hn : nm.networks = nets)
    (hi : I nm.Store) :
    (stagePeer env now nm id client).1.networks = nets ∧
    I (stagePeer env now nm id client).1.Store := by
  rcases GetNet_cases env nm id with hgn | ⟨c, hf, ⟨err, hgn⟩ | ⟨s, hg, hgn⟩⟩
  · simp only [stagePeer, hgn]
    exact ⟨hn, hi⟩
  · simp only [stagePeer, hgn]
    exact ⟨hn, hi⟩
  · rw [stagePeer_eq env now nm client hf hg]
    have hp := PutState_inv h (nm.emit (Effect.GetState id)) id (staged s client) hn hi
      (fun hid => h.steps.staged s client (loaded_inv h nm hn hi hf hg hid).2)
    rcases hput : PutState env (nm.emit (Effect.GetState id)) id (staged s client)
      with ⟨nm2, e2⟩
    rw [hput] at hp
    cases e2 with
    | some err => exact hp
    | none =>
      dsimp only
      split
      · exact ApprovePeer_inv h now nm2 id client.PubKey hp.1 hp.2
      · exact hp

theorem runHooks_store (env : Env σ) (id : String) (client : Peer) (hooks : List String)
    (nm : NetworkManager σ) :
    (runHooks env nm id client hooks).1.networks = nm.networks ∧
    (runHooks env nm id client hooks).1.Store = nm.Store := by
  induction hooks generalizing nm with
  | nil => simp [runHooks]
  | cons x rest ih =>
    cases hx : env.RunPreApproveHook x id client with
    | some err => simp [runHooks, hx, NetworkManager.emit]
    | none =>
      simp only [runHooks, hx]
      exact ih (nm.emit (Effect.RunPreApproveHook x id client))

theorem AttemptNetworkRegistration_inv (h : StoreInvariant env nets id0 c0 I Q) (now : Time)
    (nm : NetworkManager σ) (id : String) (client : Peer) (hn : nm.networks = nets)
    (hi : I nm.Store) :
    (AttemptNetworkRegistration env now nm id client).1.networks = nets ∧
    I (AttemptNetworkRegistration env now nm id client).1.Store := by
  rcases GetNet_cases env nm id with hgn | ⟨c, hf, ⟨err, hgn⟩ | ⟨s, hg, hgn⟩⟩
  · simp only [AttemptNetworkRegistration, hgn]
    exact ⟨hn, hi⟩
  · simp only [AttemptNetworkRegistration, hgn]
    exact ⟨hn, hi⟩
  · simp only [AttemptNetworkRegistration, hgn]
    obtain ⟨r1, r2⟩ := runHooks_store env id client c.PreApproveHooks
      (nm.emit (Effect.GetState id))
    rcases hrun : runHooks env (nm.emit (Effect.GetState id)) id client c.PreApproveHooks
      with ⟨nm2, e2⟩
    rw [hrun] at r1 r2
    have hn2 : nm2.networks = nets := r1.trans hn
    have hi2 : I nm2.Store := by
      rw [r2]
      exact hi
    cases e2 with
    | some err => exact ⟨hn2, hi2⟩
    | none =>
      dsimp only
      have hp := stagePeer_inv h now nm2 id client hn2 hi2
      rcases hst : stagePeer env now nm2 id client with ⟨nm3, e3⟩
      rw [hst] at hp
      cases e3 with
      | some err => exact hp
      | none =>
        have hid := findNet_ID hf
        simp only [StoreNet, hid]
        exact PutState_inv h nm3 id s hp.1 hp.2
          (fun hid0 => (loaded_inv h nm hn hi hf hg hid0).2)

theorem sweepNetwork_inv (h : StoreInvariant env nets id0 c0 I Q) (now : Time)
    (nm : NetworkManager σ) (c : NetConfig) (hn : nm.networks = nets) (hi : I nm.Store) :
    (sweepNetwork env now nm c).networks = nets ∧ I (sweepNetwork env now nm c).Store := by
  cases hg : env.GetState nm.Store c.ID with
  | error err =>
    simp only [sweepNetwork, GetState, hg]
    exact ⟨hn, hi⟩
  | ok s =>
    simp only [sweepNetwork, GetState, hg]
    exact PutState_inv h _ _ _ hn hi (fun hid => by
      rw [hid] at hg
      exact h.steps.swept now s (h.get _ _ hi hg))

theorem foldl_sweepNetwork_inv (h : StoreInvariant env nets id0 c0 I Q) (now : Time)
    (l : List NetConfig) (nm : NetworkManager σ) (hn : nm.networks = nets) (hi : I nm.Store) :
    (l.foldl (sweepNetwork env now) nm).networks = nets ∧
    I (l.foldl (sweepNetwork env now) nm).Store := by
  induction l generalizing nm with
  | nil => exact ⟨hn, hi⟩
  | cons c rest ih =>
    obtain ⟨h1, h2⟩ := sweepNetwork_inv h now nm c hn hi
    exact ih (sweepNetwork env now nm c) h1 h2

theorem runCalls_inv (h : StoreInvariant env nets id0 c0 I Q) (calls : List Call)
    (nm : NetworkManager σ) (hn : nm.networks = nets) (hi : I nm.Store) :
    (runCalls env nm calls).networks = nets ∧ I (runCalls env nm calls).Store := by
  induction calls generalizing nm with
  | nil => exact ⟨hn, hi⟩
  | cons call rest ih =>
    have hstep : (call.run env nm).networks = nets ∧ I (call.run env nm).Store := by
      cases call with
      | AttemptNetworkRegistration now id client =>
        exact AttemptNetworkRegistration_inv h now nm id client hn hi
      | ApprovePeer now id k => exact ApprovePeer_inv h now nm id k hn hi
      | DisapprovePeer id k => exact DisapprovePeer_inv h nm id k hn hi
      | ActivatePeer now id k => exact ActivatePeer_inv h now nm id k hn hi
      | DeactivatePeer id k => exact DeactivatePeer_inv h nm id k hn hi
      | ProcessExpirations now =>
        exact foldl_sweepNetwork_inv h now nm.networks nm hn hi
    exact ih (call.run env nm) hstep.1 hstep.2

end Invariants

/-! ## Lemmas for deactivation and disapproval -/

section Deactivation

variable {σ : Type}

theorem lookup_eq_none_iff {α : Type} (l : List (String × α)) (k : String) :
    lookup l k = none ↔ ∀ e ∈ l, e.1 ≠ k := by
  induction l with
  | nil => simp [lookup]
  | cons e rest ih =>
    by_cases h : e.1 = k
    · simp [lookup, h]
    · simp [lookup, h, ih]

/-- Deleting a key changes the length of a map exactly when the key is
present. -/
theorem GoMap.len_delete_ne_iff {α : Type} (m : GoMap α) (k : String) :
    m.len ≠ (m.delete k).len ↔ ∃ v, m.get? k = some v := by
  have h1 : (m.delete k).len = m.len ↔ m.get? k = none := by
    simp only [GoMap.len, GoMap.delete, GoMap.get?, List.filter_length_eq_length,
      lookup_eq_none_iff]
    simp
  constructor
  · intro h
    cases hk : m.get? k with
    | none => exact absurd (h1.2 hk).symm h
    | some v => exact ⟨v, rfl⟩
  · rintro ⟨v, hv⟩ h
    have := h1.1 h.symm
    rw [hv] at this
    cases this

theorem DisapprovePeer_reliable (env : Env σ) (hr : env.Reliable) (nm : NetworkManager σ)
    {id k : String} {c : NetConfig} {s : NetState} {peer : Peer}
    (hf : findNet nm.networks id = some c)
    (hg : env.GetState nm.Store id = Except.ok s)
    (hk : s.ApprovedPeers.get? k = some peer) :
    (DisapprovePeer env nm id k).2 = none ∧
    (DisapprovePeer env nm id k).1.networks = nm.networks ∧
    env.GetState (DisapprovePeer env nm id k).1.Store id = Except.ok (deactivated s k) := by
  rw [DisapprovePeer_eq env nm hf hg hk]
  simp only [PutState, hr.put_ok]
  obtain ⟨h1, h2, h3, _⟩ := DeactivatePeer_reliable env hr
    { networks := (nm.emit (Effect.GetState id)).networks,
      Store := (env.PutState (nm.emit (Effect.GetState id)).Store id s).1,
      trace := (nm.emit (Effect.GetState id)).trace ++ [Effect.PutState id s] }
    k hf (hr.get_put _ _ _)
  refine ⟨h1, h2, ?_⟩
  rw [h3]
  exact hr.get_put _ _ _

end Deactivation

/-! ## The effects of a call -/

section Effects

variable {σ : Type} {env : Env σ}

theorem Extends.refl (id : String) (nm : NetworkManager σ) : Extends env id nm nm :=
  ⟨rfl, [], by simp, rfl, by simp⟩

theorem replay_append (env : Env σ) (w : σ) (t u : List Effect) :
    replay env w (t ++ u) = replay env (replay env w t) u := by
  simp [replay, List.foldl_append]

theorem Extends.trans {id : String} {a b d : NetworkManager σ} (h1 : Extends env id a b)
    (h2 : Extends env id b d) : Extends env id a d := by
  obtain ⟨n1, t1, e1, s1, p1⟩ := h1
  obtain ⟨n2, t2, e2, s2, p2⟩ := h2
  refine ⟨n2.trans n1, t1 ++ t2, ?_, ?_, ?_⟩
  · rw [e2, e1, List.append_assoc]
  · rw [s2, s1, replay_append]
  · intro e he
    rcases List.mem_append.1 he with h | h
    · exact p1 e h
    · exact p2 e h

theorem Extends.get (id : String) (nm : NetworkManager σ) :
    Extends env id nm (nm.emit (Effect.GetState id)) :=
  ⟨rfl, [Effect.GetState id], rfl, rfl, by simp [Effect.netID]⟩

theorem Extends.hook (h id : String) (client : Peer) (nm : NetworkManager σ) :
    Extends env id nm (nm.emit (Effect.RunPreApproveHook h id client)) :=
  ⟨rfl, [Effect.RunPreApproveHook h id client], rfl, rfl, by simp [Effect.netID]⟩

theorem Extends.sync {id : String} (net : Network) (hn : net.ID = id) (nm : NetworkManager σ) :
    Extends env id nm (nm.emit (Effect.Sync net)) :=
  ⟨rfl, [Effect.Sync net], rfl, rfl, by simp [Effect.netID, hn]⟩

theorem Extends.put (id : String) (st : NetState) (nm : NetworkManager σ) :
    Extends env id nm (PutState env nm id st).1 :=
  ⟨rfl, [Effect.PutState id st], rfl, rfl, by simp [Effect.netID]⟩

theorem replay_frame (hs : env.Sound) {id id1 : String} (hne : id1 ≠ id) (t : List Effect)
    (w : σ) (ht : ∀ e ∈ t, e.netID = id) :
    env.GetState (replay env w t) id1 = env.GetState w id1 := by
  induction t generalizing w with
  | nil => rfl
  | cons e rest ih =>
    have h1 : e.netID = id := ht e (List.mem_cons_self _ _)
    have h2 : ∀ x ∈ rest, x.netID = id := fun x hx => ht x (List.mem_cons_of_mem _ hx)
    have h3 : replay env w (e :: rest) = replay env (replay env w [e]) rest :=
      replay_append env w [e] rest
    rw [h3, ih _ h2]
    cases e with
    | PutState i st =>
      have hi : i = id := h1
      subst hi
      exact hs.put_other w i id1 st hne
    | GetState i => rfl
    | RunPreApproveHook a b d => rfl
    | Sync net => rfl

/-- A call on one overlay leaves the stored state of every other overlay as
it was. -/
theorem Extends.frame (hs : env.Sound) {id id1 : String} {nm nm1 : NetworkManager σ}
    (h : Extends env id nm nm1) (hne : id1 ≠ id) :
    env.GetState nm1.Store id1 = env.GetState nm.Store id1 := by
  obtain ⟨_, t, _, hst, ht⟩ := h
  rw [hst]
  exact replay_frame hs hne t nm.Store ht

theorem ActivatePeer_extends (env : Env σ) (now : Time) (nm : NetworkManager σ)
    (id k : String) : Extends env id nm (ActivatePeer env now nm id k).1 := by
  rcases GetNet_cases env nm id with hgn | ⟨c, hf, ⟨err, hgn⟩ | ⟨s, hg, hgn⟩⟩
  · simp only [ActivatePeer, hgn]
    exact Extends.refl id nm
  · simp only [ActivatePeer, hgn]
    exact Extends.get id nm
  · cases hk : s.ApprovedPeers.get? k with
    | none =>
      simp only [ActivatePeer, hgn, hk]
      exact Extends.get id nm
    | some peer =>
      rw [ActivatePeer_eq env now nm hf hg hk]
      exact (Extends.get id nm).trans
        ((Extends.sync _ (findNet_ID hf) _).trans (Extends.put id _ _))

theorem ApprovePeer_extends (env : Env σ) (now : Time) (nm : NetworkManager σ)
    (id k : String) : Extends env id nm (ApprovePeer env now nm id k).1 := by
  rcases GetNet_cases env nm id with hgn | ⟨c, hf, ⟨err, hgn⟩ | ⟨s, hg, hgn⟩⟩
  · simp only [ApprovePeer, hgn]
    exact Extends.refl id nm
  · simp only [ApprovePeer, hgn]
    exact Extends.get id nm
  · cases hk : s.StagedPeers.get? k with
    | none =>
      simp only [ApprovePeer, hgn, hk]
      exact Extends.get id nm
    | some peer =>
      rw [ApprovePeer_eq env now nm hf hg hk]
      have hp : Extends env id nm
          (PutState env (nm.emit (Effect.GetState id)) id
            (approved c now s k
              (env.configurePeer { toNetConfig := c, toNetState := s } peer))).1 :=
        (Extends.get id nm).trans (Extends.put id _ _)
      rcases hput : PutState env (nm.emit (Effect.GetState id)) id
        (approved c now s k (env.configurePeer { toNetConfig := c, toNetState := s } peer))
        with ⟨nm2, e2⟩
      rw [hput] at hp
      cases e2 with
      | some err => exact hp
      | none =>
        dsimp only
        split
        · exact hp.trans (ActivatePeer_extends env now nm2 id k)
        · exact hp

theorem DeactivatePeer_extends (env : Env σ) (nm : NetworkManager σ) (id k : String) :
    Extends env id nm (DeactivatePeer env nm id k).1 := by
  rcases GetNet_cases env nm id with hgn | ⟨c, hf, ⟨err, hgn⟩ | ⟨s, hg, hgn⟩⟩
  · simp only [DeactivatePeer, hgn]
    exact Extends.refl id nm
  · simp only [DeactivatePeer, hgn]
    exact Extends.get id nm
  · rw [DeactivatePeer_eq env nm k hf hg]
    split
    · exact (Extends.get id nm).trans
        ((Extends.sync _ (findNet_ID hf) _).trans (Extends.put id _ _))
    · exact (Extends.get id nm).trans (Extends.put id _ _)

theorem DisapprovePeer_extends (env : Env σ) (nm : NetworkManager σ) (id k : String) :
    Extends env id nm (DisapprovePeer env nm id k).1 := by
  rcases GetNet_cases env nm id with hgn | ⟨c, hf, ⟨err, hgn⟩ | ⟨s, hg, hgn⟩⟩
  · simp only [DisapprovePeer, hgn]
    exact Extends.refl id nm
  · simp only [DisapprovePeer, hgn]
    exact Extends.get id nm
  · cases hk : s.ApprovedPeers.get? k with
    | none =>
      simp only [DisapprovePeer, hgn, hk]
      exact Extends.get id nm
    | some peer =>
      rw [DisapprovePeer_eq env nm hf hg hk]
      have hp : Extends env id nm (PutState env (nm.emit (Effect.GetState id)) id s).1 :=
        (Extends.get id nm).trans (Extends.put id _ _)
      rcases hput : PutState env (nm.emit (Effect.GetState id)) id s with ⟨nm2, e2⟩
      rw [hput] at hp
      cases e2 with
      | some err => exact hp
      | none => exact hp.trans (DeactivatePeer_extends env nm2 id k)

theorem stagePeer_extends (env : Env σ) (now : Time) (nm : NetworkManager σ) (id : String)
    (client : Peer) : Extends env id nm (stagePeer env now nm id client).1 := by
  rcases GetNet_cases env nm id with hgn | ⟨c, hf, ⟨err, hgn⟩ | ⟨s, hg, hgn⟩⟩
  · simp only [stagePeer, hgn]
    exact Extends.refl id nm
  · simp only [stagePeer, hgn]
    exact Extends.get id nm
  · rw [stagePeer_eq env now nm client hf hg]
    have hp : Extends env id nm
        (PutState env (nm.emit (Effect.GetState id)) id (staged s client)).1 :=
      (Extends.get id nm).trans (Extends.put id _ _)
    rcases hput : PutState env (nm.emit (Effect.GetState id)) id (staged s client)
      with ⟨nm2, e2⟩
    rw [hput] at hp
    cases e2 with
    | some err => exact hp
    | none =>
      dsimp only
      split
      · exact hp.trans (ApprovePeer_extends env now nm2 id client.PubKey)
      · exact hp

theorem runHooks_extends (env : Env σ) (id : String) (client : Peer) (hooks : List String)
    (nm : NetworkManager σ) : Extends env id nm (runHooks env nm id client hooks).1 := by
  induction hooks generalizing nm with
  | nil => exact Extends.refl id nm
  | cons x rest ih =>
    cases hx : env.RunPreApproveHook x id client with
    | some err =>
      simp only [runHooks, hx]
      exact Extends.hook x id client nm
    | none =>
      simp only [runHooks, hx]
      exact (Extends.hook x id client nm).trans (ih _)

theorem AttemptNetworkRegistration_extends (env : Env σ) (now : Time)
    (nm : NetworkManager σ) (id : String) (client : Peer) :
    Extends env id nm (AttemptNetworkRegistration env now nm id client).1 := by
  rcases GetNet_cases env nm id with hgn | ⟨c, hf, ⟨err, hgn⟩ | ⟨s, hg, hgn⟩⟩
  · simp only [AttemptNetworkRegistration, hgn]
    exact Extends.refl id nm
  · simp only [AttemptNetworkRegistration, hgn]
    exact Extends.get id nm
  · simp only [AttemptNetworkRegistration, hgn]
    have h2 : Extends env id nm
        (runHooks env (nm.emit (Effect.GetState id)) id client c.PreApproveHooks).1 :=
      (Extends.get id nm).trans (runHooks_extends env id client _ _)
    rcases hrun : runHooks env (nm.emit (Effect.GetState id)) id client c.PreApproveHooks
      with ⟨nm2, e2⟩
    rw [hrun] at h2
    cases e2 with
    | some err => exact h2
    | none =>
      dsimp only
      have h3 := h2.trans (stagePeer_extends env now nm2 id client)
      rcases hst : stagePeer env now nm2 id client with ⟨nm3, e3⟩
      rw [hst] at h3
      cases e3 with
      | some err => exact h3
      | none =>
        have hid := findNet_ID hf
        simp only [StoreNet, hid]
        exact h3.trans (Extends.put id _ _)

end Effects

/-! ## The hook loop -/

section Hooks

variable {σ : Type}

theorem runHooks_fail (env : Env σ) (id : String) (client : Peer) (pre : List String)
    (h : String) (post : List String) (err : Error)
    (hpre : ∀ x ∈ pre, env.RunPreApproveHook x id client = none)
    (hh : env.RunPreApproveHook h id client = some err) (nm : NetworkManager σ) :
    (runHooks env nm id client (pre ++ h :: post)).2 = some err ∧
    (runHooks env nm id client (pre ++ h :: post)).1.trace =
      nm.trace ++ (pre ++ [h]).map (fun x => Effect.RunPreApproveHook x id client) := by
  induction pre generalizing nm with
  | nil => simp [runHooks, hh, NetworkManager.emit]
  | cons x rest ih =>
    have hx := hpre x (List.mem_cons_self _ _)
    obtain ⟨h1, h2⟩ := ih (fun y hy => hpre y (List.mem_cons_of_mem _ hy))
      (nm.emit (Effect.RunPreApproveHook x id client))
    simp only [List.cons_append, runHooks, hx]
    refine ⟨h1, h2.trans ?_⟩
    simp [NetworkManager.emit]

theorem runHooks_pass_trace (env : Env σ) (id : String) (client : Peer) (hooks : List String)
    (hh : ∀ x ∈ hooks, env.RunPreApproveHook x id client = none) (nm : NetworkManager σ) :
    (runHooks env nm id client hooks).1.trace =
      nm.trace ++ hooks.map (fun x => Effect.RunPreApproveHook x id client) := by
  induction hooks generalizing nm with
  | nil => simp [runHooks]
  | cons x rest ih =>
    have hx := hh x (List.mem_cons_self _ _)
    simp only [runHooks, hx]
    rw [ih (fun y hy => hh y (List.mem_cons_of_mem _ hy))]
    simp [NetworkManager.emit]

end Hooks

/-! ## The effects of the sweep -/

section SweepEffects

variable {σ : Type}

theorem syncCount_append (t u : List Effect) :
    syncCount (t ++ u) = syncCount t + syncCount u := by
  simp [syncCount, List.countP_append]

theorem putCount_append (id : String) (t u : List Effect) :
    putCount id (t ++ u) = putCount id t + putCount id u := by
  simp [putCount, List.countP_append]

theorem sweepState_peers (now : Time) (s : NetState) :
    (sweepState now s).StagedPeers = s.StagedPeers ∧
    (sweepState now s).ApprovedPeers = s.ApprovedPeers ∧
    (sweepState now s).ActivePeers = s.ActivePeers :=
  ⟨rfl, rfl, rfl⟩

theorem foldl_sweepNetwork_trace (env : Env σ) (hr : env.Reliable) (now : Time)
    (l : List NetConfig) (nm : NetworkManager σ)
    (hall : ∀ d ∈ l, ∃ s, env.GetState nm.Store d.ID = Except.ok s) :
    ∃ t : List Effect,
      (l.foldl (sweepNetwork env now) nm).trace = nm.trace ++ t ∧
      syncCount t = 0 ∧
      ∀ id, putCount id t = (l.map NetConfig.ID).count id := by
  induction l generalizing nm with
  | nil => exact ⟨[], by simp, rfl, fun id => rfl⟩
  | cons c rest ih =>
    obtain ⟨s, hs⟩ := hall c (List.mem_cons_self _ _)
    have hrest : ∀ d ∈ rest, ∃ s1,
        env.GetState (sweepNetwork env now nm c).Store d.ID = Except.ok s1 := by
      intro d hd
      obtain ⟨sd, hsd⟩ := hall d (List.mem_cons_of_mem _ hd)
      exact ⟨_, sweepNetwork_stored env hr now nm c d.ID sd hsd⟩
    obtain ⟨t, h1, h2, h3⟩ := ih (sweepNetwork env now nm c) hrest
    have htr : (sweepNetwork env now nm c).trace =
        nm.trace ++ [Effect.GetState c.ID, Effect.PutState c.ID (sweepState now s)] := by
      simp [sweepNetwork, GetState, hs, PutState, NetworkManager.emit]
    refine ⟨[Effect.GetState c.ID, Effect.PutState c.ID (sweepState now s)] ++ t, ?_, ?_, ?_⟩
    · rw [List.foldl_cons, h1, htr, List.append_assoc]
    · rw [syncCount_append, h2]
      rfl
    · intro id
      rw [putCount_append, h3 id, List.map_cons, List.count_cons]
      by_cases hid : c.ID = id
      · simp [putCount, hid, Nat.add_comm]
      · simp [putCount, hid]

end SweepEffects

/-! ## Invariants of the peer sets and schedules -/

section PeerInvariants

variable {σ : Type}

theorem GoMap.get?_set {α : Type} (m : GoMap α) (k k1 : String) (v : α) :
    (m.set k v).get? k1 = if k1 = k then some v else m.get? k1 := by
  by_cases h : k1 = k
  · rw [if_pos h, h]
    exact GoMap.get?_set_self m k v
  · rw [if_neg h]
    exact GoMap.get?_set_ne m v h

theorem GoMap.get?_delete {α : Type} (m : GoMap α) (k k1 : String) :
    (m.delete k).get? k1 = if k1 = k then none else m.get? k1 := by
  by_cases h : k1 = k
  · rw [if_pos h, h]
    exact GoMap.get?_delete_self m k
  · rw [if_neg h]
    exact GoMap.get?_delete_ne m h

theorem keyed_empty : Keyed NetState.empty :=
  ⟨fun k p h => (by cases h), fun k p h => (by cases h)⟩

theorem activeApproved_empty : ActiveApproved NetState.empty :=
  fun k p h => by cases h

theorem keyed_staged {s : NetState} (h : Keyed s) (client : Peer) : Keyed (staged s client) := by
  refine ⟨fun k p hp => ?_, h.2⟩
  simp only [staged, GoMap.get?_set] at hp
  by_cases hk : k = client.PubKey
  · rw [if_pos hk] at hp
    cases hp
    exact hk.symm
  · rw [if_neg hk] at hp
    exact h.1 k p hp

theorem keyed_approved {s : NetState} (h : Keyed s) (c : NetConfig) (now : Time)
    {k : String} {peer peer1 : Peer} (hk : s.StagedPeers.get? k = some peer)
    (hkey : peer1.PubKey = peer.PubKey) : Keyed (approved c now s k peer1) := by
  refine ⟨fun k1 p hp => ?_, fun k1 p hp => ?_⟩
  · simp only [approved, GoMap.get?_delete] at hp
    by_cases h1 : k1 = k
    · rw [if_pos h1] at hp
      cases hp
    · rw [if_neg h1] at hp
      exact h.1 k1 p hp
  · simp only [approved, GoMap.get?_set] at hp
    by_cases h1 : k1 = k
    · rw [if_pos h1] at hp
      cases hp
      rw [hkey, h1]
      exact h.1 k peer hk
    · rw [if_neg h1] at hp
      exact h.2 k1 p hp

theorem preserved_activeApproved (env : Env σ) (hkey : env.KeepsKey) (c0 : NetConfig) :
    Preserved env c0 (fun s => Keyed s ∧ ActiveApproved s) where
  staged := fun s client h => ⟨keyed_staged h.1 client, h.2⟩
  approved := fun now s k peer h hk => by
    refine ⟨keyed_approved h.1 c0 now hk (hkey _ _), fun k1 p hp => ?_⟩
    obtain ⟨q, hq⟩ := h.2 k1 p hp
    simp only [approved, GoMap.get?_set]
    by_cases h1 : k1 = k
    · rw [if_pos h1]
      exact ⟨_, rfl⟩
    · rw [if_neg h1]
      exact ⟨q, hq⟩
  activated := fun now s k peer h hk => by
    refine ⟨h.1, fun k1 p hp => ?_⟩
    have hpk : peer.PubKey = k := h.1.2 k peer hk
    simp only [activated, GoMap.get?_set] at hp
    by_cases h1 : k1 = peer.PubKey
    · rw [h1, hpk]
      exact ⟨peer, hk⟩
    · rw [if_neg h1] at hp
      exact h.2 k1 p hp
  deactivated := fun s k h => by
    refine ⟨h.1, fun k1 p hp => ?_⟩
    simp only [deactivated, GoMap.get?_delete] at hp
    by_cases h1 : k1 = k
    · rw [if_pos h1] at hp
      cases hp
    · rw [if_neg h1] at hp
      exact h.2 k1 p hp
  swept := fun now s h => h

end PeerInvariants

/-! ## Calls on the empty overlay state -/

section EmptyState

variable {σ : Type}

/-- With a reliable store the state stored after a registration is the state
stored before it, whether the hooks pass or not. -/
theorem AttemptNetworkRegistration_stored (env : Env σ) (hr : env.Reliable) (now : Time)
    (nm : NetworkManager σ) {id : String} {c : NetConfig} {s : NetState} (client : Peer)
    (hf : findNet nm.networks id = some c)
    (hg : env.GetState nm.Store id = Except.ok s) :
    env.GetState (AttemptNetworkRegistration env now nm id client).1.Store id = Except.ok s := by
  have hid := findNet_ID hf
  obtain ⟨r2, r3⟩ := runHooks_store env id client c.PreApproveHooks
    (nm.emit (Effect.GetState id))
  simp only [AttemptNetworkRegistration, GetNet_known env nm hf hg]
  rcases hrun : runHooks env (nm.emit (Effect.GetState id)) id client c.PreApproveHooks with
    ⟨nm2, e2⟩
  rw [hrun] at r2 r3
  simp only at r2 r3
  have hg2 : env.GetState nm2.Store id = Except.ok s := by
    rw [r3]
    exact hg
  cases e2 with
  | some err => exact hg2
  | none =>
    have hf2 : findNet nm2.networks id = some c := by
      rw [r2]
      exact hf
    obtain ⟨t1, _⟩ := stagePeer_reliable env hr now nm2 client hf2 hg2
    dsimp only
    rcases hst : stagePeer env now nm2 id client with ⟨nm3, e3⟩
    rw [hst] at t1
    simp only at t1
    subst t1
    simp only [StoreNet, PutState, hid]
    exact hr.get_put _ _ _

theorem ApprovePeer_unknown_store (env : Env σ) (now : Time) (nm : NetworkManager σ)
    {id k : String} {c : NetConfig} {s : NetState}
    (hf : findNet nm.networks id = some c)
    (hg : env.GetState nm.Store id = Except.ok s)
    (hk : s.StagedPeers.get? k = none) :
    (ApprovePeer env now nm id k).1.Store = nm.Store := by
  simp [ApprovePeer, GetNet_known env nm hf hg, hk, NetworkManager.emit]

theorem ActivatePeer_unknown_store (env : Env σ) (now : Time) (nm : NetworkManager σ)
    {id k : String} {c : NetConfig} {s : NetState}
    (hf : findNet nm.networks id = some c)
    (hg : env.GetState nm.Store id = Except.ok s)
    (hk : s.ApprovedPeers.get? k = none) :
    (ActivatePeer env now nm id k).1.Store = nm.Store := by
  simp [ActivatePeer, GetNet_known env nm hf hg, hk, NetworkManager.emit]

theorem DisapprovePeer_unknown_store (env : Env σ) (nm : NetworkManager σ)
    {id k : String} {c : NetConfig} {s : NetState}
    (hf : findNet nm.networks id = some c)
    (hg : env.GetState nm.Store id = Except.ok s)
    (hk : s.ApprovedPeers.get? k = none) :
    (DisapprovePeer env nm id k).1.Store = nm.Store := by
  simp [DisapprovePeer, GetNet_known env nm hf hg, hk, NetworkManager.emit]

/-- With a reliable store, a call made while the stored state of an overlay
is empty leaves it empty: a registration puts back the state it loaded, and
no other call finds a peer to move. -/
theorem Call.run_keeps_empty (env : Env σ) (hr : env.Reliable) (nm : NetworkManager σ)
    (id0 : String) (hg : env.GetState nm.Store id0 = Except.ok NetState.empty) (call : Call) :
    env.GetState (call.run env nm).Store id0 = Except.ok NetState.empty := by
  cases call with
  | AttemptNetworkRegistration now id client =>
    by_cases hid : id0 = id
    · subst hid
      cases hf : findNet nm.networks id0 with
      | none =>
        simp only [Call.run, Locksmith.AttemptNetworkRegistration, GetNet_unknown env nm hf]
        exact hg
      | some c => exact AttemptNetworkRegistration_stored env hr now nm client hf hg
    · exact (Extends.frame hr.sound
        (AttemptNetworkRegistration_extends env now nm id client) hid).trans hg
  | ApprovePeer now id k =>
    by_cases hid : id0 = id
    · subst hid
      cases hf : findNet nm.networks id0 with
      | none =>
        simp only [Call.run, Locksmith.ApprovePeer, GetNet_unknown env nm hf]
        exact hg
      | some c =>
        simp only [Call.run, ApprovePeer_unknown_store env now nm hf hg rfl]
        exact hg
    · exact (Extends.frame hr.sound (ApprovePeer_extends env now nm id k) hid).trans hg
  | DisapprovePeer id k =>
    by_cases hid : id0 = id
    · subst hid
      cases hf : findNet nm.networks id0 with
      | none =>
        simp only [Call.run, Locksmith.DisapprovePeer, GetNet_unknown env nm hf]
        exact hg
      | some c =>
        simp only [Call.run, DisapprovePeer_unknown_store env nm hf hg rfl]
        exact hg
    · exact (Extends.frame hr.sound (DisapprovePeer_extends env nm id k) hid).trans hg
  | ActivatePeer now id k =>
    by_cases hid : id0 = id
    · subst hid
      cases hf : findNet nm.networks id0 with
      | none =>
        simp only [Call.run, Locksmith.ActivatePeer, GetNet_unknown env nm hf]
        exact hg
      | some c =>
        simp only [Call.run, ActivatePeer_unknown_store env now nm hf hg rfl]
        exact hg
    · exact (Extends.frame hr.sound (ActivatePeer_extends env now nm id k) hid).trans hg
  | DeactivatePeer id k =>
    by_cases hid : id0 = id
    · subst hid
      cases hf : findNet nm.networks id0 with
      | none =>
        simp only [Call.run, Locksmith.DeactivatePeer, GetNet_unknown env nm hf]
        exact hg
      | some c =>
        obtain ⟨_, _, h3, _⟩ := DeactivatePeer_reliable env hr nm k hf hg
        simp only [Call.run, h3]
        exact hr.get_put _ _ _
    · exact (Extends.frame hr.sound (DeactivatePeer_extends env nm id k) hid).trans hg
  | ProcessExpirations now =>
    simp only [Call.run, Locksmith.ProcessExpirations]
    rw [foldl_sweepNetwork_stored env hr now nm.networks nm id0 NetState.empty hg]
    split <;> rfl

theorem runCalls_keeps_empty (env : Env σ) (hr : env.Reliable) (id0 : String)
    (calls : List Call) (nm : NetworkManager σ)
    (hg : env.GetState nm.Store id0 = Except.ok NetState.empty) :
    env.GetState (runCalls env nm calls).Store id0 = Except.ok NetState.empty := by
  induction calls generalizing nm with
  | nil => exact hg
  | cons call rest ih => exact ih (call.run env nm) (Call.run_keeps_empty env hr nm id0 hg call)

end EmptyState

/-! ## The cascades -/

section Cascades

variable {σ : Type}

/-- With a reliable store, what is stored after the approval of a staged
key: the key has left StagedPeers, the configured peer is in ApprovedPeers,
and without automatic activation ActivePeers is as before and no sync is
dispatched. -/
theorem ApprovePeer_stored (env : Env σ) (hr : env.Reliable) (now : Time)
    (nm : NetworkManager σ) {id k : String} {c : NetConfig} {s : NetState} {peer : Peer}
    (hf : findNet nm.networks id = some c)
    (hg : env.GetState nm.Store id = Except.ok s)
    (hk : s.StagedPeers.get? k = some peer) :
    ∃ s1 : NetState,
      env.GetState (ApprovePeer env now nm id k).1.Store id = Except.ok s1 ∧
      s1.StagedPeers.get? k = none ∧
      s1.ApprovedPeers.get? k =
        some (env.configurePeer { toNetConfig := c, toNetState := s } peer) ∧
      (ToUpper c.ActivateMode ≠ "AUTO" →
        s1.ActivePeers = s.ActivePeers ∧
        (ApprovePeer env now nm id k).1.trace =
          nm.trace ++ [Effect.GetState id, Effect.PutState id s1]) := by
  rw [ApprovePeer_store env hr now nm hf hg hk]
  by_cases hm : ToUpper c.ActivateMode = "AUTO"
  · rw [if_pos hm]
    have hk2 : (approved c now s k
        (env.configurePeer { toNetConfig := c, toNetState := s } peer)).ApprovedPeers.get? k =
        some (env.configurePeer { toNetConfig := c, toNetState := s } peer) :=
      GoMap.get?_set_self _ _ _
    obtain ⟨_, _, h3, _⟩ := ActivatePeer_reliable env hr now
      { networks := nm.networks,
        Store := (env.PutState nm.Store id
          (approved c now s k (env.configurePeer { toNetConfig := c, toNetState := s } peer))).1,
        trace := nm.trace ++ [Effect.GetState id,
          Effect.PutState id
            (approved c now s k
              (env.configurePeer { toNetConfig := c, toNetState := s } peer))] }
      hf (hr.get_put _ _ _) hk2
    refine ⟨activated c now
        (approved c now s k (env.configurePeer { toNetConfig := c, toNetState := s } peer)) k
        (env.configurePeer { toNetConfig := c, toNetState := s } peer), ?_,
      GoMap.get?_delete_self _ _, hk2, fun h => absurd hm h⟩
    rw [h3]
    exact hr.get_put _ _ _
  · rw [if_neg hm]
    exact ⟨approved c now s k (env.configurePeer { toNetConfig := c, toNetState := s } peer),
      hr.get_put _ _ _, GoMap.get?_delete_self _ _, GoMap.get?_set_self _ _ _,
      fun _ => ⟨rfl, rfl⟩⟩

theorem stagePeer_store (env : Env σ) (hr : env.Reliable) (now : Time)
    (nm : NetworkManager σ) {id : String} (client : Peer) {c : NetConfig} {s : NetState}
    (hf : findNet nm.networks id = some c)
    (hg : env.GetState nm.Store id = Except.ok s) :
    stagePeer env now nm id client =
      if ToUpper c.ApproveMode = "AUTO" then
        ApprovePeer env now
          { networks := nm.networks,
            Store := (env.PutState nm.Store id (staged s client)).1,
            trace := nm.trace ++ [Effect.GetState id, Effect.PutState id (staged s client)] }
          id client.PubKey
      else
        ({ networks := nm.networks,
           Store := (env.PutState nm.Store id (staged s client)).1,
           trace := nm.trace ++ [Effect.GetState id, Effect.PutState id (staged s client)] },
          none) := by
  rw [stagePeer_eq env now nm client hf hg]
  simp [PutState, hr.put_ok, NetworkManager.emit]

end Cascades

/-! ## Claims -/

section Claims

variable {σ : Type}

/-- C1 fails on the code. The overlay "office" has manual approval, the store
is empty and the peer "pk1" is in no peer set. AttemptNetworkRegistration
returns without error; stagePeer writes the state with "pk1" staged, and the
last line of AttemptNetworkRegistration then writes the state it loaded
before staging. The state read from the store afterwards is the empty state:
"pk1" is not in StagedPeers. -/
theorem registration_manual_not_staged :
    findNet (freshManager office).networks "office" = some office ∧
    ToUpper office.ApproveMode ≠ "AUTO" ∧
    memEnv.GetState (freshManager office).Store "office" = Except.ok NetState.empty ∧
    (AttemptNetworkRegistration memEnv 0 (freshManager office) "office" pk1).2 = none ∧
    (AttemptNetworkRegistration memEnv 0 (freshManager office) "office" pk1).1.trace =
      [Effect.GetState "office", Effect.GetState "office",
        Effect.PutState "office" stagedState, Effect.PutState "office" NetState.empty] ∧
    memEnv.GetState
      (AttemptNetworkRegistration memEnv 0 (freshManager office) "office" pk1).1.Store
      "office" = Except.ok NetState.empty ∧
    NetState.empty.StagedPeers.get? pk1.PubKey = none :=
  ⟨by decide, by decide, rfl, by decide, by decide, rfl, rfl⟩

/-- C2 fails on the code. The overlay "auto" has automatic approval and the
store is empty. AttemptNetworkRegistration of "pk1" returns without error;
stagePeer writes the staged state, ApprovePeer writes the state with "pk1"
approved, and the last line of AttemptNetworkRegistration then writes the
state it loaded before staging. The state read from the store afterwards is
the empty state: "pk1" is not in ApprovedPeers. -/
theorem registration_auto_not_approved :
    findNet (freshManager autoOverlay).networks "auto" = some autoOverlay ∧
    ToUpper autoOverlay.ApproveMode = "AUTO" ∧
    memEnv.GetState (freshManager autoOverlay).Store "auto" = Except.ok NetState.empty ∧
    (AttemptNetworkRegistration memEnv 0 (freshManager autoOverlay) "auto" pk1).2 = none ∧
    (AttemptNetworkRegistration memEnv 0 (freshManager autoOverlay) "auto" pk1).1.trace =
      [Effect.GetState "auto", Effect.GetState "auto",
        Effect.PutState "auto" stagedState, Effect.GetState "auto",
        Effect.PutState "auto" approvedState, Effect.PutState "auto" NetState.empty] ∧
    memEnv.GetState
      (AttemptNetworkRegistration memEnv 0 (freshManager autoOverlay) "auto" pk1).1.Store
      "auto" = Except.ok NetState.empty ∧
    NetState.empty.ApprovedPeers.get? pk1.PubKey = none :=
  ⟨by decide, by decide, rfl, by decide, by decide, rfl, rfl⟩

/-- C4: on a configured overlay, ApprovePeer returns ErrUnknownPeer when the
key is not in StagedPeers, and ActivatePeer and DisapprovePeer return
ErrUnknownPeer when the key is not in ApprovedPeers. In each of these calls
the only effect is the read of the overlay state: the store is left as it
was, nothing is written and no interface-sync is dispatched. -/
theorem unknown_peer_rejected (env : Env σ) (now : Time) (nm : NetworkManager σ)
    (id k : String) (c : NetConfig) (s : NetState)
    (hf : findNet nm.networks id = some c)
    (hg : env.GetState nm.Store id = Except.ok s) :
    (s.StagedPeers.get? k = none →
      (ApprovePeer env now nm id k).2 = some Error.ErrUnknownPeer ∧
      (ApprovePeer env now nm id k).1.Store = nm.Store ∧
      (ApprovePeer env now nm id k).1.trace = nm.trace ++ [Effect.GetState id]) ∧
    (s.ApprovedPeers.get? k = none →
      ((ActivatePeer env now nm id k).2 = some Error.ErrUnknownPeer ∧
        (ActivatePeer env now nm id k).1.Store = nm.Store ∧
        (ActivatePeer env now nm id k).1.trace = nm.trace ++ [Effect.GetState id]) ∧
      ((DisapprovePeer env nm id k).2 = some Error.ErrUnknownPeer ∧
        (DisapprovePeer env nm id k).1.Store = nm.Store ∧
        (DisapprovePeer env nm id k).1.trace = nm.trace ++ [Effect.GetState id])) := by
  refine ⟨fun hk => ?_, fun hk => ⟨?_, ?_⟩⟩
  · simp [ApprovePeer, GetNet_known env nm hf hg, hk, NetworkManager.emit]
  · simp [ActivatePeer, GetNet_known env nm hf hg, hk, NetworkManager.emit]
  · simp [DisapprovePeer, GetNet_known env nm hf hg, hk, NetworkManager.emit]

/-- Witness of `unknown_peer_rejected`: the overlay "office" over the empty
store and the key "pk1", which is in no peer set. -/
theorem unknown_peer_rejected_witness :
    (findNet (freshManager office).networks "office" = some office ∧
      memEnv.GetState (freshManager office).Store "office" = Except.ok NetState.empty ∧
      NetState.empty.StagedPeers.get? "pk1" = none ∧
      NetState.empty.ApprovedPeers.get? "pk1" = none) ∧
    ((ApprovePeer memEnv 0 (freshManager office) "office" "pk1").2 = some Error.ErrUnknownPeer ∧
      (ApprovePeer memEnv 0 (freshManager office) "office" "pk1").1.Store = [] ∧
      (ApprovePeer memEnv 0 (freshManager office) "office" "pk1").1.trace =
        [Effect.GetState "office"]) ∧
    ((ActivatePeer memEnv 0 (freshManager office) "office" "pk1").2 = some Error.ErrUnknownPeer ∧
      (ActivatePeer memEnv 0 (freshManager office) "office" "pk1").1.Store = [] ∧
      (ActivatePeer memEnv 0 (freshManager office) "office" "pk1").1.trace =
        [Effect.GetState "office"]) ∧
    ((DisapprovePeer memEnv (freshManager office) "office" "pk1").2 = some Error.ErrUnknownPeer ∧
      (DisapprovePeer memEnv (freshManager office) "office" "pk1").1.Store = [] ∧
      (DisapprovePeer memEnv (freshManager office) "office" "pk1").1.trace =
        [Effect.GetState "office"]) :=
  ⟨⟨by decide, rfl, rfl, rfl⟩,
    (unknown_peer_rejected memEnv 0 (freshManager office) "office" "pk1" office NetState.empty
      (by decide) rfl).1 rfl,
    ((unknown_peer_rejected memEnv 0 (freshManager office) "office" "pk1" office NetState.empty
      (by decide) rfl).2 rfl).1,
    ((unknown_peer_rejected memEnv 0 (freshManager office) "office" "pk1" office NetState.empty
      (by decide) rfl).2 rfl).2⟩

/-- C5: when `id` is the ID of no configured overlay, GetNet fails with
ErrUnknownNetwork (which is not ErrInternalError) and the five lifecycle
operations return ErrUnknownNetwork; each leaves the manager as it was, so
the store is neither read nor written, no hook runs and no sync is
dispatched. Conversely, when some configured overlay has the ID `id` and the
store returns `s` for it, GetNet returns the first configured overlay with
that ID (the overlay itself when IDs are unique) together with `s`. -/
theorem unknown_network_rejected (env : Env σ) (now : Time) (nm : NetworkManager σ)
    (id k : String) (client : Peer) :
    ((∀ c ∈ nm.networks, c.ID ≠ id) →
      GetNet env nm id = (nm, Except.error Error.ErrUnknownNetwork) ∧
      (GetNet env nm id).2 ≠ Except.error Error.ErrInternalError ∧
      AttemptNetworkRegistration env now nm id client = (nm, some Error.ErrUnknownNetwork) ∧
      ApprovePeer env now nm id k = (nm, some Error.ErrUnknownNetwork) ∧
      DisapprovePeer env nm id k = (nm, some Error.ErrUnknownNetwork) ∧
      ActivatePeer env now nm id k = (nm, some Error.ErrUnknownNetwork) ∧
      DeactivatePeer env nm id k = (nm, some Error.ErrUnknownNetwork)) ∧
    (∀ c ∈ nm.networks, c.ID = id → ∀ s, env.GetState nm.Store id = Except.ok s →
      ∃ d, d ∈ nm.networks ∧ d.ID = id ∧
        (GetNet env nm id).2 = Except.ok { toNetConfig := d, toNetState := s } ∧
        (GetNet env nm id).1.Store = nm.Store ∧
        ((∀ e ∈ nm.networks, e.ID = id → e = c) → d = c)) := by
  constructor
  · intro h
    have hf := (findNet_eq_none_iff nm.networks id).2 h
    have hg := GetNet_unknown env nm hf
    refine ⟨hg, ?_, ?_, ?_, ?_, ?_, ?_⟩
    · rw [hg]
      simp
    · simp [AttemptNetworkRegistration, hg]
    · simp [ApprovePeer, hg]
    · simp [DisapprovePeer, hg]
    · simp [ActivatePeer, hg]
    · simp [DeactivatePeer, hg]
  · intro c hc hid s hg
    obtain ⟨d, hd⟩ := findNet_isSome_of_mem hc
    rw [hid] at hd
    refine ⟨d, findNet_mem hd, findNet_ID hd, ?_, ?_, fun hu => hu d (findNet_mem hd) (findNet_ID hd)⟩
    · rw [GetNet_known env nm hd hg]
    · rw [GetNet_known env nm hd hg]
      rfl

/-- Witness of `unknown_network_rejected`: the identifier "lab" is not
configured in the manager of "office", and "office" is. -/
theorem unknown_network_rejected_witness :
    ((∀ c ∈ (freshManager office).networks, c.ID ≠ "lab") ∧
      GetNet memEnv (freshManager office) "lab" =
        (freshManager office, Except.error Error.ErrUnknownNetwork) ∧
      AttemptNetworkRegistration memEnv 0 (freshManager office) "lab" pk1 =
        (freshManager office, some Error.ErrUnknownNetwork)) ∧
    (office ∈ (freshManager office).networks ∧
      ∃ d, d ∈ (freshManager office).networks ∧ d.ID = "office" ∧
        (GetNet memEnv (freshManager office) "office").2 =
          Except.ok { toNetConfig := d, toNetState := NetState.empty }) :=
  ⟨⟨by decide,
      ((unknown_network_rejected memEnv 0 (freshManager office) "lab" "pk1" pk1).1
        (by decide)).1,
      ((unknown_network_rejected memEnv 0 (freshManager office) "lab" "pk1" pk1).1
        (by decide)).2.2.1⟩,
    by decide,
    (((unknown_network_rejected memEnv 0 (freshManager office) "office" "pk1" pk1).2
        office (by decide) rfl NetState.empty rfl).imp
      fun _ h => ⟨h.1, h.2.1, h.2.2.1⟩)⟩

/-- C6: DeactivatePeer is idempotent. On a configured overlay with a reliable
store, whatever the stored state and whether or not the key is active, two
consecutive calls both return without error, the key is absent from
ActivePeers and ActivationExpirations in the state stored after the first
call, and the state stored after the second call is that same state. -/
theorem deactivate_idempotent (env : Env σ) (hr : env.Reliable) (nm : NetworkManager σ)
    (id k : String) (c : NetConfig) (s : NetState)
    (hf : findNet nm.networks id = some c)
    (hg : env.GetState nm.Store id = Except.ok s) :
    (DeactivatePeer env nm id k).2 = none ∧
    (DeactivatePeer env (DeactivatePeer env nm id k).1 id k).2 = none ∧
    ∃ s1 : NetState,
      env.GetState (DeactivatePeer env nm id k).1.Store id = Except.ok s1 ∧
      s1.ActivePeers.get? k = none ∧
      s1.ActivationExpirations.get? k = none ∧
      env.GetState (DeactivatePeer env (DeactivatePeer env nm id k).1 id k).1.Store id =
        Except.ok s1 := by
  obtain ⟨h1, h2, h3, _⟩ := DeactivatePeer_reliable env hr nm k hf hg
  have hg1 : env.GetState (DeactivatePeer env nm id k).1.Store id =
      Except.ok (deactivated s k) := by
    rw [h3]
    exact hr.get_put _ _ _
  have hf1 : findNet (DeactivatePeer env nm id k).1.networks id = some c := by
    rw [h2]
    exact hf
  obtain ⟨j1, _, j3, _⟩ := DeactivatePeer_reliable env hr (DeactivatePeer env nm id k).1 k hf1 hg1
  refine ⟨h1, j1, deactivated s k, hg1, ?_, ?_, ?_⟩
  · exact GoMap.get?_delete_self _ _
  · exact GoMap.get?_delete_self _ _
  · rw [j3, hr.get_put]
    simp [deactivated, GoMap.delete_delete]

/-- Witness of `deactivate_idempotent`: "pk1" is active on "office" and is
deactivated twice. -/
theorem deactivate_idempotent_witness :
    (findNet (managerWith office activeState).networks "office" = some office ∧
      memEnv.GetState (managerWith office activeState).Store "office" = Except.ok activeState) ∧
    (DeactivatePeer memEnv (managerWith office activeState) "office" "pk1").2 = none ∧
    (DeactivatePeer memEnv
      (DeactivatePeer memEnv (managerWith office activeState) "office" "pk1").1
      "office" "pk1").2 = none ∧
    ∃ s1 : NetState,
      memEnv.GetState
        (DeactivatePeer memEnv (managerWith office activeState) "office" "pk1").1.Store
        "office" = Except.ok s1 ∧
      s1.ActivePeers.get? "pk1" = none ∧
      s1.ActivationExpirations.get? "pk1" = none ∧
      memEnv.GetState
        (DeactivatePeer memEnv
          (DeactivatePeer memEnv (managerWith office activeState) "office" "pk1").1
          "office" "pk1").1.Store "office" = Except.ok s1 :=
  ⟨⟨by decide, rfl⟩,
    deactivate_idempotent memEnv memEnv_reliable (managerWith office activeState)
      "office" "pk1" office activeState (by decide) rfl⟩

/-- C7: with a reliable store, for every configured overlay and sweep time
`now`, the state stored after ProcessExpirations has in ApprovalExpirations
and in ActivationExpirations exactly the entries of the state stored before
whose timestamp is not strictly earlier than `now`, each with its timestamp.
In particular an approval expiry scheduled at `T + D` is removed by a sweep
at any time later than `T + D` and kept by a sweep at any earlier time. -/
theorem sweep_removes_expired (env : Env σ) (hr : env.Reliable) (now : Time)
    (nm : NetworkManager σ) (c : NetConfig) (s : NetState) (hc : c ∈ nm.networks)
    (hg : env.GetState nm.Store c.ID = Except.ok s) :
    ∃ s1 : NetState,
      env.GetState (ProcessExpirations env now nm).Store c.ID = Except.ok s1 ∧
      (∀ k t, s1.ApprovalExpirations.get? k = some t ↔
        (s.ApprovalExpirations.get? k = some t ∧ ¬ t < now)) ∧
      (∀ k t, s1.ActivationExpirations.get? k = some t ↔
        (s.ActivationExpirations.get? k = some t ∧ ¬ t < now)) ∧
      (∀ k (T : Time) (D : Duration), s.ApprovalExpirations.get? k = some (T + D) →
        (T + D < now → s1.ApprovalExpirations.get? k = none) ∧
        (now < T + D → s1.ApprovalExpirations.get? k = some (T + D))) := by
  have h1 : ∀ k t, (sweepState now s).ApprovalExpirations.get? k = some t ↔
      (s.ApprovalExpirations.get? k = some t ∧ ¬ t < now) := by
    intro k t
    simp [sweepState, GoMap.get?_rangeDelete, Time.After]
  have h2 : ∀ k t, (sweepState now s).ActivationExpirations.get? k = some t ↔
      (s.ActivationExpirations.get? k = some t ∧ ¬ t < now) := by
    intro k t
    simp [sweepState, GoMap.get?_rangeDelete, Time.After]
  refine ⟨sweepState now s, ProcessExpirations_stored env hr now nm hc hg, h1, h2, ?_⟩
  intro k T D hk
  constructor
  · intro hlt
    cases hs : (sweepState now s).ApprovalExpirations.get? k with
    | none => rfl
    | some t =>
      obtain ⟨h3, h4⟩ := (h1 k t).1 hs
      rw [hk] at h3
      cases h3
      exact absurd hlt h4
  · intro hlt
    exact (h1 k (T + D)).2 ⟨hk, lt_asymm hlt⟩

/-- Witness of `sweep_removes_expired`: on "lab" the approval of "pk1" is
scheduled to expire at 4600; the sweep at 4601 removes the entry. -/
theorem sweep_removes_expired_witness :
    (lab ∈ (managerWith lab scheduledState).networks ∧
      memEnv.GetState (managerWith lab scheduledState).Store lab.ID = Except.ok scheduledState ∧
      scheduledState.ApprovalExpirations.get? "pk1" = some (1000 + 3600)) ∧
    ∃ s1 : NetState,
      memEnv.GetState (ProcessExpirations memEnv 4601 (managerWith lab scheduledState)).Store
        lab.ID = Except.ok s1 ∧
      s1.ApprovalExpirations.get? "pk1" = none :=
  ⟨⟨by decide, rfl, rfl⟩,
    (sweep_removes_expired memEnv memEnv_reliable 4601 (managerWith lab scheduledState)
      lab scheduledState (by decide) rfl).imp
      fun _ h => ⟨h.1, (h.2.2.2 "pk1" 1000 3600 rfl).1 (by decide)⟩⟩

/-- C8: on an overlay configured with approval-expiry 0, ApprovalExpirations
stays empty through every finite sequence of AttemptNetworkRegistration,
ApprovePeer, DisapprovePeer, ActivatePeer, DeactivatePeer and
ProcessExpirations calls, whatever their arguments. With a reliable store
the state stored at the end has an empty ApprovalExpirations; with a store
whose calls may fail, every state read at the end has. -/
theorem approval_schedule_stays_empty (env : Env σ) (nm : NetworkManager σ) (id : String)
    (c : NetConfig) (hf : findNet nm.networks id = some c) (he : c.ApproveExpiry = 0)
    (calls : List Call) :
    (env.Reliable →
      (∃ s, env.GetState nm.Store id = Except.ok s ∧ s.ApprovalExpirations = GoMap.empty) →
      ∃ s, env.GetState (runCalls env nm calls).Store id = Except.ok s ∧
        s.ApprovalExpirations = GoMap.empty) ∧
    (env.Sound →
      (∀ s, env.GetState nm.Store id = Except.ok s → s.ApprovalExpirations = GoMap.empty) →
      ∀ s, env.GetState (runCalls env nm calls).Store id = Except.ok s →
        s.ApprovalExpirations = GoMap.empty) := by
  have hp : Preserved env c (fun s => s.ApprovalExpirations = GoMap.empty) :=
    { staged := fun s client hq => hq
      approved := fun now s k peer hq _ => by simp [approved, he, hq]
      activated := fun now s k peer hq _ => hq
      deactivated := fun s k hq => hq
      swept := fun now s hq => by
        simp only [sweepState, hq]
        rfl }
  constructor
  · intro hr h0
    exact (runCalls_inv (StoreInvariant.of_reliable hr hf hp) calls nm rfl h0).2
  · intro hs h0
    exact (runCalls_inv (StoreInvariant.of_sound hs hf hp) calls nm rfl h0).2

/-- Witness of `approval_schedule_stays_empty`: on "office" (approval-expiry
0) with "pk1" and "pk2" staged, both peers are approved, one is deactivated and
a sweep runs; ApprovalExpirations is empty at the end. -/
theorem approval_schedule_stays_empty_witness :
    (findNet (managerWith office twoStaged).networks "office" = some office ∧
      office.ApproveExpiry = 0 ∧
      memEnv.GetState (managerWith office twoStaged).Store "office" = Except.ok twoStaged ∧
      twoStaged.ApprovalExpirations = GoMap.empty) ∧
    ∃ s, memEnv.GetState
        (runCalls memEnv (managerWith office twoStaged)
          [Call.ApprovePeer 10 "office" "pk1", Call.ApprovePeer 20 "office" "pk2",
            Call.DeactivatePeer "office" "pk1", Call.ProcessExpirations 30]).Store
        "office" = Except.ok s ∧
      s.ApprovedPeers.get? "pk1" = some pk1 ∧
      s.ApprovedPeers.get? "pk2" = some pk2 ∧
      s.ApprovalExpirations = GoMap.empty :=
  ⟨⟨by decide, rfl, rfl, rfl⟩,
    _, rfl, by decide, by decide,
    ((approval_schedule_stays_empty memEnv (managerWith office twoStaged) "office" office
      (by decide) rfl
      [Call.ApprovePeer 10 "office" "pk1", Call.ApprovePeer 20 "office" "pk2",
        Call.DeactivatePeer "office" "pk1", Call.ProcessExpirations 30]).1
      memEnv_reliable ⟨twoStaged, rfl, rfl⟩).elim
      fun s1 h => by
        have h2 := h.1
        cases h2
        exact h.2⟩

/-- C9: on a configured overlay whose activation mode is not AUTO, with a
reliable store, ApprovePeer of a staged key `k` at time `now` returns without
error, and in the state stored afterwards `k` is gone from StagedPeers, the
configured peer is in ApprovedPeers under `k`, ActivePeers and
ActivationExpirations are unchanged, the entries of every other key are
unchanged, and ApprovalExpirations holds `now + ApproveExpiry` under `k` when
ApproveExpiry is non-zero and is unchanged when it is zero. -/
theorem approve_without_activation (env : Env σ) (hr : env.Reliable) (now : Time)
    (nm : NetworkManager σ) (id k : String) (c : NetConfig) (s : NetState) (peer : Peer)
    (hf : findNet nm.networks id = some c)
    (hg : env.GetState nm.Store id = Except.ok s)
    (hk : s.StagedPeers.get? k = some peer)
    (hm : ToUpper c.ActivateMode ≠ "AUTO") :
    (ApprovePeer env now nm id k).2 = none ∧
    ∃ s1 : NetState,
      env.GetState (ApprovePeer env now nm id k).1.Store id = Except.ok s1 ∧
      s1.StagedPeers.get? k = none ∧
      s1.ApprovedPeers.get? k =
        some (env.configurePeer { toNetConfig := c, toNetState := s } peer) ∧
      s1.ActivePeers = s.ActivePeers ∧
      s1.ActivationExpirations = s.ActivationExpirations ∧
      (∀ k1, k1 ≠ k →
        s1.StagedPeers.get? k1 = s.StagedPeers.get? k1 ∧
        s1.ApprovedPeers.get? k1 = s.ApprovedPeers.get? k1 ∧
        s1.ApprovalExpirations.get? k1 = s.ApprovalExpirations.get? k1) ∧
      (c.ApproveExpiry ≠ 0 → s1.ApprovalExpirations.get? k = some (now + c.ApproveExpiry)) ∧
      (c.ApproveExpiry = 0 → s1.ApprovalExpirations = s.ApprovalExpirations) := by
  rw [ApprovePeer_store env hr now nm hf hg hk, if_neg hm]
  refine ⟨rfl, _, hr.get_put _ _ _, ?_, ?_, rfl, rfl, ?_, ?_, ?_⟩
  · exact GoMap.get?_delete_self _ _
  · exact GoMap.get?_set_self _ _ _
  · intro k1 h1
    refine ⟨GoMap.get?_delete_ne _ h1, GoMap.get?_set_ne _ _ h1, ?_⟩
    by_cases he : c.ApproveExpiry = 0
    · simp [approved, he]
    · simp [approved, he, GoMap.get?_set_ne _ _ h1]
  · intro he
    simp [approved, he, GoMap.get?_set_self, Time.Add]
  · intro he
    simp [approved, he]

/-- Witness of `approve_without_activation`: "pk1" is staged on the overlay
"lab" (manual activation, approvals expire after 3600) and approved at
time 1000. -/
theorem approve_without_activation_witness :
    (findNet (managerWith lab stagedState).networks "lab" = some lab ∧
      memEnv.GetState (managerWith lab stagedState).Store "lab" = Except.ok stagedState ∧
      stagedState.StagedPeers.get? "pk1" = some pk1 ∧
      ToUpper lab.ActivateMode ≠ "AUTO") ∧
    (ApprovePeer memEnv 1000 (managerWith lab stagedState) "lab" "pk1").2 = none ∧
    ∃ s1 : NetState,
      memEnv.GetState (ApprovePeer memEnv 1000 (managerWith lab stagedState) "lab" "pk1").1.Store
        "lab" = Except.ok s1 ∧
      s1.StagedPeers.get? "pk1" = none ∧
      s1.ApprovedPeers.get? "pk1" = some pk1 ∧
      s1.ApprovalExpirations.get? "pk1" = some 4600 :=
  ⟨⟨by decide, rfl, rfl, by decide⟩,
    (approve_without_activation memEnv memEnv_reliable 1000 (managerWith lab stagedState)
      "lab" "pk1" lab stagedState pk1 (by decide) rfl rfl (by decide)).1,
    (approve_without_activation memEnv memEnv_reliable 1000 (managerWith lab stagedState)
      "lab" "pk1" lab stagedState pk1 (by decide) rfl rfl (by decide)).2.imp
      fun _ h => ⟨h.1, h.2.1, h.2.2.1, h.2.2.2.2.2.2.1 (by decide)⟩⟩

/-- C11: on a configured overlay, whatever the stored state and the key `k`,
the effects of DeactivatePeer contain an interface-sync if and only if `k`
was in ActivePeers before the call. When they do, there is exactly one, and
the overlay it is given has `k` removed from ActivePeers and from
ActivationExpirations and is otherwise the loaded overlay. -/
theorem deactivate_sync_iff_active (env : Env σ) (nm : NetworkManager σ) (id k : String)
    (c : NetConfig) (s : NetState)
    (hf : findNet nm.networks id = some c)
    (hg : env.GetState nm.Store id = Except.ok s) :
    ∃ t : List Effect,
      (DeactivatePeer env nm id k).1.trace = nm.trace ++ t ∧
      (syncCount t = 1 ↔ ∃ p, s.ActivePeers.get? k = some p) ∧
      (syncCount t = 0 ↔ s.ActivePeers.get? k = none) ∧
      ∀ net, Effect.Sync net ∈ t →
        net.toNetConfig = c ∧
        net.ActivePeers.get? k = none ∧
        net.ActivationExpirations.get? k = none ∧
        (∀ k1, k1 ≠ k → net.ActivePeers.get? k1 = s.ActivePeers.get? k1 ∧
          net.ActivationExpirations.get? k1 = s.ActivationExpirations.get? k1) ∧
        net.StagedPeers = s.StagedPeers ∧
        net.ApprovedPeers = s.ApprovedPeers ∧
        net.ApprovalExpirations = s.ApprovalExpirations := by
  rw [DeactivatePeer_eq env nm k hf hg]
  by_cases hlen : s.ActivePeers.len ≠ (s.ActivePeers.delete k).len
  · obtain ⟨p, hp⟩ := (GoMap.len_delete_ne_iff _ _).1 hlen
    refine ⟨[Effect.GetState id,
      Effect.Sync { toNetConfig := c, toNetState := deactivated s k },
      Effect.PutState id (deactivated s k)], ?_, ?_, ?_, ?_⟩
    · simp [PutState, hlen, NetworkManager.emit]
    · simp [syncCount, hp]
    · simp [syncCount, hp]
    · intro net hnet
      simp at hnet
      subst hnet
      refine ⟨rfl, GoMap.get?_delete_self _ _, GoMap.get?_delete_self _ _, ?_, rfl, rfl, rfl⟩
      intro k1 h1
      exact ⟨GoMap.get?_delete_ne _ h1, GoMap.get?_delete_ne _ h1⟩
  · have hnone : s.ActivePeers.get? k = none := by
      cases hk : s.ActivePeers.get? k with
      | none => rfl
      | some v => exact absurd ((GoMap.len_delete_ne_iff _ _).2 ⟨v, hk⟩) hlen
    refine ⟨[Effect.GetState id, Effect.PutState id (deactivated s k)], ?_, ?_, ?_, ?_⟩
    · simp [PutState, hlen, NetworkManager.emit]
    · simp [syncCount, hnone]
    · simp [syncCount, hnone]
    · intro net hnet
      simp at hnet

/-- Witness of `deactivate_sync_iff_active`: "pk1" is active on "office", so
its deactivation dispatches one sync. -/
theorem deactivate_sync_iff_active_witness :
    (findNet (managerWith office activeState).networks "office" = some office ∧
      memEnv.GetState (managerWith office activeState).Store "office" = Except.ok activeState ∧
      activeState.ActivePeers.get? "pk1" = some pk1) ∧
    ∃ t : List Effect,
      (DeactivatePeer memEnv (managerWith office activeState) "office" "pk1").1.trace =
        (managerWith office activeState).trace ++ t ∧
      syncCount t = 1 :=
  ⟨⟨by decide, rfl, rfl⟩,
    (deactivate_sync_iff_active memEnv (managerWith office activeState) "office" "pk1"
      office activeState (by decide) rfl).imp
      fun _ h => ⟨h.1, h.2.1.2 ⟨pk1, rfl⟩⟩⟩

/-- C12: with a reliable store on which the state of every configured overlay
can be read, ProcessExpirations edits only the schedules. For every
configured overlay and every sweep time, StagedPeers, ApprovedPeers and
ActivePeers of the stored state are the same after the sweep as before; the
effects of the sweep contain no interface-sync; and the number of writes
under an identifier is the number of configured overlays with that
identifier, which is one for every overlay when identifiers are unique. -/
theorem sweep_edits_schedules_only (env : Env σ) (hr : env.Reliable) (now : Time)
    (nm : NetworkManager σ)
    (hall : ∀ d ∈ nm.networks, ∃ s, env.GetState nm.Store d.ID = Except.ok s) :
    (∀ c ∈ nm.networks, ∀ s, env.GetState nm.Store c.ID = Except.ok s →
      ∃ s1 : NetState,
        env.GetState (ProcessExpirations env now nm).Store c.ID = Except.ok s1 ∧
        s1.StagedPeers = s.StagedPeers ∧
        s1.ApprovedPeers = s.ApprovedPeers ∧
        s1.ActivePeers = s.ActivePeers) ∧
    ∃ t : List Effect,
      (ProcessExpirations env now nm).trace = nm.trace ++ t ∧
      syncCount t = 0 ∧
      (∀ id, putCount id t = (nm.networks.map NetConfig.ID).count id) ∧
      ((nm.networks.map NetConfig.ID).Nodup → ∀ c ∈ nm.networks, putCount c.ID t = 1) := by
  constructor
  · intro c hc s hs
    exact ⟨sweepState now s, ProcessExpirations_stored env hr now nm hc hs, rfl, rfl, rfl⟩
  · obtain ⟨t, h1, h2, h3⟩ := foldl_sweepNetwork_trace env hr now nm.networks nm hall
    refine ⟨t, h1, h2, h3, ?_⟩
    intro hnd c hc
    rw [h3 c.ID]
    exact List.count_eq_one_of_mem hnd (List.mem_map.2 ⟨c, hc, rfl⟩)

/-- Witness of `sweep_edits_schedules_only`: on "lab", with "pk1" approved
and its approval scheduled to expire at 4600, the sweep at 5000 writes the
state once, dispatches no sync and leaves "pk1" approved. -/
theorem sweep_edits_schedules_only_witness :
    (lab ∈ (managerWith lab scheduledState).networks ∧
      memEnv.GetState (managerWith lab scheduledState).Store lab.ID = Except.ok scheduledState) ∧
    (∃ s1 : NetState,
      memEnv.GetState (ProcessExpirations memEnv 5000 (managerWith lab scheduledState)).Store
        lab.ID = Except.ok s1 ∧
      s1.ApprovedPeers = scheduledState.ApprovedPeers) ∧
    ∃ t : List Effect,
      (ProcessExpirations memEnv 5000 (managerWith lab scheduledState)).trace =
        (managerWith lab scheduledState).trace ++ t ∧
      syncCount t = 0 ∧
      putCount lab.ID t = 1 :=
  ⟨⟨by decide, rfl⟩,
    ((sweep_edits_schedules_only memEnv memEnv_reliable 5000 (managerWith lab scheduledState)
      (fun _ _ => ⟨_, rfl⟩)).1 lab (by decide) scheduledState rfl).imp
      fun _ h => ⟨h.1, h.2.2.1⟩,
    (sweep_edits_schedules_only memEnv memEnv_reliable 5000 (managerWith lab scheduledState)
      (fun _ _ => ⟨_, rfl⟩)).2.imp
      fun _ h => ⟨h.1, h.2.1, h.2.2.2 (by decide) lab (by decide)⟩⟩

/-- C13: on a configured overlay with a reliable store, DisapprovePeer of a
key `k` that is in ApprovedPeers returns without error, and in the state
stored afterwards `k` is absent from ActivePeers and ActivationExpirations
while ApprovedPeers, with its entry for `k`, StagedPeers and
ApprovalExpirations are as before the call. -/
theorem disapprove_keeps_approval (env : Env σ) (hr : env.Reliable) (nm : NetworkManager σ)
    (id k : String) (c : NetConfig) (s : NetState) (peer : Peer)
    (hf : findNet nm.networks id = some c)
    (hg : env.GetState nm.Store id = Except.ok s)
    (hk : s.ApprovedPeers.get? k = some peer) :
    (DisapprovePeer env nm id k).2 = none ∧
    ∃ s1 : NetState,
      env.GetState (DisapprovePeer env nm id k).1.Store id = Except.ok s1 ∧
      s1.ActivePeers.get? k = none ∧
      s1.ActivationExpirations.get? k = none ∧
      s1.ApprovedPeers = s.ApprovedPeers ∧
      s1.ApprovedPeers.get? k = some peer ∧
      s1.StagedPeers = s.StagedPeers ∧
      s1.ApprovalExpirations = s.ApprovalExpirations := by
  obtain ⟨h1, _, h3⟩ := DisapprovePeer_reliable env hr nm hf hg hk
  exact ⟨h1, deactivated s k, h3, GoMap.get?_delete_self _ _, GoMap.get?_delete_self _ _,
    rfl, hk, rfl, rfl⟩

/-- Witness of `disapprove_keeps_approval`: "pk1" is approved and active on
"office" and is disapproved. -/
theorem disapprove_keeps_approval_witness :
    (findNet (managerWith office activeState).networks "office" = some office ∧
      memEnv.GetState (managerWith office activeState).Store "office" = Except.ok activeState ∧
      activeState.ApprovedPeers.get? "pk1" = some pk1) ∧
    (DisapprovePeer memEnv (managerWith office activeState) "office" "pk1").2 = none ∧
    ∃ s1 : NetState,
      memEnv.GetState
        (DisapprovePeer memEnv (managerWith office activeState) "office" "pk1").1.Store
        "office" = Except.ok s1 ∧
      s1.ActivePeers.get? "pk1" = none ∧
      s1.ApprovedPeers.get? "pk1" = some pk1 :=
  ⟨⟨by decide, rfl, rfl⟩,
    (disapprove_keeps_approval memEnv memEnv_reliable (managerWith office activeState)
      "office" "pk1" office activeState pk1 (by decide) rfl rfl).1,
    (disapprove_keeps_approval memEnv memEnv_reliable (managerWith office activeState)
      "office" "pk1" office activeState pk1 (by decide) rfl rfl).2.imp
      fun _ h => ⟨h.1, h.2.1, h.2.2.2.2.1⟩⟩

/-- C14 fails on the code. "pk1" is approved on "office". DisapprovePeer of
"pk1" returns without error and the state stored afterwards still has "pk1"
in ApprovedPeers; the ActivatePeer of "pk1" that follows does not fail with
ErrUnknownPeer, it returns without error and "pk1" is active. -/
theorem disapprove_leaves_approved :
    findNet (managerWith office approvedState).networks "office" = some office ∧
    approvedState.ApprovedPeers.get? "pk1" = some pk1 ∧
    (DisapprovePeer memEnv (managerWith office approvedState) "office" "pk1").2 = none ∧
    memEnv.GetState
      (DisapprovePeer memEnv (managerWith office approvedState) "office" "pk1").1.Store
      "office" = Except.ok approvedState ∧
    (ActivatePeer memEnv 0
      (DisapprovePeer memEnv (managerWith office approvedState) "office" "pk1").1
      "office" "pk1").2 = none ∧
    ∃ s1 : NetState,
      memEnv.GetState
        (ActivatePeer memEnv 0
          (DisapprovePeer memEnv (managerWith office approvedState) "office" "pk1").1
          "office" "pk1").1.Store "office" = Except.ok s1 ∧
      s1.ApprovedPeers.get? "pk1" = some pk1 ∧
      s1.ActivePeers.get? "pk1" = some pk1 :=
  ⟨by decide, rfl, by decide, rfl, by decide, _, rfl, by decide, by decide⟩

/-- C15, as the code has it: in every ActivatePeer call that returns without
error the interface-sync is dispatched before the overlay state is written
to the store. The effects of the call are, in order, the read of the overlay
state, the dispatch of the sync, and the write; the sync is given the state
that is then written. -/
theorem activate_sync_before_store (env : Env σ) (now : Time) (nm : NetworkManager σ)
    (id k : String) (hok : (ActivatePeer env now nm id k).2 = none) :
    ∃ net : Network,
      (ActivatePeer env now nm id k).1.trace =
        nm.trace ++ [Effect.GetState id, Effect.Sync net, Effect.PutState id net.toNetState] := by
  rcases GetNet_cases env nm id with hgn | ⟨c, hf, ⟨err, hgn⟩ | ⟨s, hg, hgn⟩⟩
  · simp [ActivatePeer, hgn] at hok
  · simp [ActivatePeer, hgn] at hok
  · cases hk : s.ApprovedPeers.get? k with
    | none => simp [ActivatePeer, hgn, hk] at hok
    | some peer =>
      rw [ActivatePeer_eq env now nm hf hg hk]
      exact ⟨{ toNetConfig := c, toNetState := activated c now s k peer },
        by simp [PutState, NetworkManager.emit]⟩

/-- Witness of `activate_sync_before_store`: the activation of "pk1",
approved on "lab", returns without error. -/
theorem activate_sync_before_store_witness :
    (ActivatePeer memEnv 1000 (managerWith lab approvedState) "lab" "pk1").2 = none ∧
    ∃ net : Network,
      (ActivatePeer memEnv 1000 (managerWith lab approvedState) "lab" "pk1").1.trace =
        (managerWith lab approvedState).trace ++
          [Effect.GetState "lab", Effect.Sync net, Effect.PutState "lab" net.toNetState] :=
  ⟨by decide,
    activate_sync_before_store memEnv 1000 (managerWith lab approvedState) "lab" "pk1"
      (by decide)⟩

/-- C15 fails as stated: the activation of "pk1", approved on "lab", returns
without error, and in its sequence of effects the sync dispatch comes second
and the store write third. -/
theorem activate_sync_before_store_counterexample :
    (ActivatePeer memEnv 1000 (managerWith lab approvedState) "lab" "pk1").2 = none ∧
    (ActivatePeer memEnv 1000 (managerWith lab approvedState) "lab" "pk1").1.trace =
      [Effect.GetState "lab",
        Effect.Sync { toNetConfig := lab, toNetState := activated lab 1000 approvedState "pk1" pk1 },
        Effect.PutState "lab" (activated lab 1000 approvedState "pk1" pk1)] :=
  ⟨by decide, by decide⟩

/-- C16: on a configured overlay whose state can be read,
AttemptNetworkRegistration runs the pre-approval hooks in list order. When
the hooks before `h` pass and `h` fails with `err`, the call returns `err`,
its effects are the read of the overlay state followed by the runs of the
hooks up to `h`, in order, and nothing else: no later hook runs, nothing is
written, and the store and the stored overlay state are as before. When all
hooks pass, the effects start with the read followed by the runs of all the
hooks in list order. -/
theorem hook_failure_aborts (env : Env σ) (now : Time) (nm : NetworkManager σ) (id : String)
    (client : Peer) (c : NetConfig) (s : NetState)
    (hf : findNet nm.networks id = some c)
    (hg : env.GetState nm.Store id = Except.ok s) :
    (∀ (pre : List String) (h : String) (post : List String) (err : Error),
      c.PreApproveHooks = pre ++ h :: post →
      (∀ x ∈ pre, env.RunPreApproveHook x id client = none) →
      env.RunPreApproveHook h id client = some err →
      (AttemptNetworkRegistration env now nm id client).2 = some err ∧
      (AttemptNetworkRegistration env now nm id client).1.trace =
        nm.trace ++ Effect.GetState id ::
          (pre ++ [h]).map (fun x => Effect.RunPreApproveHook x id client) ∧
      (AttemptNetworkRegistration env now nm id client).1.Store = nm.Store ∧
      env.GetState (AttemptNetworkRegistration env now nm id client).1.Store id =
        Except.ok s) ∧
    ((∀ x ∈ c.PreApproveHooks, env.RunPreApproveHook x id client = none) →
      ∃ t : List Effect,
        (AttemptNetworkRegistration env now nm id client).1.trace =
          nm.trace ++ Effect.GetState id ::
            c.PreApproveHooks.map (fun x => Effect.RunPreApproveHook x id client) ++ t) := by
  constructor
  · intro pre h post err hhooks hpre hh
    obtain ⟨h1, h2⟩ := runHooks_fail env id client pre h post err hpre hh
      (nm.emit (Effect.GetState id))
    obtain ⟨_, h4⟩ := runHooks_store env id client (pre ++ h :: post)
      (nm.emit (Effect.GetState id))
    simp only [AttemptNetworkRegistration, GetNet_known env nm hf hg, hhooks]
    rcases hrun : runHooks env (nm.emit (Effect.GetState id)) id client (pre ++ h :: post)
      with ⟨nm2, e2⟩
    rw [hrun] at h1 h2 h4
    simp only at h1 h2 h4
    subst h1
    refine ⟨rfl, ?_, h4, ?_⟩
    · rw [h2]
      simp [NetworkManager.emit]
    · show env.GetState nm2.Store id = Except.ok s
      rw [h4]
      exact hg
  · intro hh
    have h1 := runHooks_pass_trace env id client c.PreApproveHooks hh
      (nm.emit (Effect.GetState id))
    obtain ⟨r1, _, _⟩ := runHooks_pass env id client c.PreApproveHooks hh
      (nm.emit (Effect.GetState id))
    simp only [AttemptNetworkRegistration, GetNet_known env nm hf hg]
    rcases hrun : runHooks env (nm.emit (Effect.GetState id)) id client c.PreApproveHooks
      with ⟨nm2, e2⟩
    rw [hrun] at h1 r1
    simp only at h1 r1
    subst r1
    dsimp only
    obtain ⟨_, t1, ht1, _, _⟩ := stagePeer_extends env now nm2 id client
    rcases hst : stagePeer env now nm2 id client with ⟨nm3, e3⟩
    rw [hst] at ht1
    simp only at ht1
    cases e3 with
    | some err =>
      refine ⟨t1, ?_⟩
      show nm3.trace = _
      rw [ht1, h1]
      simp [NetworkManager.emit]
    | none =>
      refine ⟨t1 ++ [Effect.PutState c.ID s], ?_⟩
      simp only [StoreNet, PutState]
      rw [ht1, h1]
      simp [NetworkManager.emit]

/-- Witness of `hook_failure_aborts`: the overlay "gated" has the hooks
"allow", "deny" and "audit"; "allow" passes and "deny" fails, so the
registration of "pk1" returns the error of "deny", "audit" is not run and
the store stays empty. -/
theorem hook_failure_aborts_witness :
    (findNet (freshManager gated).networks "gated" = some gated ∧
      memEnv.GetState (freshManager gated).Store "gated" = Except.ok NetState.empty ∧
      gated.PreApproveHooks = ["allow"] ++ "deny" :: ["audit"] ∧
      memEnv.RunPreApproveHook "deny" "gated" pk1 = some (Error.other "denied")) ∧
    (AttemptNetworkRegistration memEnv 0 (freshManager gated) "gated" pk1).2 =
      some (Error.other "denied") ∧
    (AttemptNetworkRegistration memEnv 0 (freshManager gated) "gated" pk1).1.trace =
      (freshManager gated).trace ++ Effect.GetState "gated" ::
        (["allow"] ++ ["deny"]).map (fun x => Effect.RunPreApproveHook x "gated" pk1) ∧
    (AttemptNetworkRegistration memEnv 0 (freshManager gated) "gated" pk1).1.Store =
      (freshManager gated).Store ∧
    memEnv.GetState (AttemptNetworkRegistration memEnv 0 (freshManager gated) "gated" pk1).1.Store
      "gated" = Except.ok NetState.empty :=
  ⟨⟨by decide, rfl, rfl, by decide⟩,
    (hook_failure_aborts memEnv 0 (freshManager gated) "gated" pk1 gated NetState.empty
      (by decide) rfl).1 ["allow"] "deny" ["audit"] (Error.other "denied") rfl
      (by decide) (by decide)⟩

/-- C17, as the code has it: on a configured overlay, with a configuration
callback that keeps the peer's public key, start from a stored state in which
every staged and approved peer is filed under its own public key and every
key of ActivePeers is a key of ApprovedPeers (the empty state is one). After
every finite sequence of AttemptNetworkRegistration, ApprovePeer,
DisapprovePeer, ActivatePeer, DeactivatePeer and ProcessExpirations calls,
failing or not, every key of ActivePeers is a key of ApprovedPeers: in the
state stored at the end with a reliable store, in every state read at the
end with a store whose calls may fail. -/
theorem active_peers_stay_approved (env : Env σ) (nm : NetworkManager σ) (id : String)
    (c : NetConfig) (hf : findNet nm.networks id = some c) (hkey : env.KeepsKey)
    (calls : List Call) :
    (env.Reliable →
      (∃ s, env.GetState nm.Store id = Except.ok s ∧ Keyed s ∧ ActiveApproved s) →
      ∃ s, env.GetState (runCalls env nm calls).Store id = Except.ok s ∧
        ∀ k p, s.ActivePeers.get? k = some p → ∃ q, s.ApprovedPeers.get? k = some q) ∧
    (env.Sound →
      (∀ s, env.GetState nm.Store id = Except.ok s → Keyed s ∧ ActiveApproved s) →
      ∀ s, env.GetState (runCalls env nm calls).Store id = Except.ok s →
        ∀ k p, s.ActivePeers.get? k = some p → ∃ q, s.ApprovedPeers.get? k = some q) := by
  have hp := preserved_activeApproved env hkey c
  constructor
  · intro hr h0
    obtain ⟨s, h1, h2⟩ := (runCalls_inv (StoreInvariant.of_reliable hr hf hp) calls nm rfl h0).2
    exact ⟨s, h1, h2.2⟩
  · intro hs h0 s h1
    exact ((runCalls_inv (StoreInvariant.of_sound hs hf hp) calls nm rfl h0).2 s h1).2

/-- Witness of `active_peers_stay_approved`: on "office" with "pk1" staged,
"pk1" is approved (which activates it), deactivated and activated again; it
is active at the end, and approved. -/
theorem active_peers_stay_approved_witness :
    (findNet (managerWith office stagedState).networks "office" = some office ∧
      memEnv.GetState (managerWith office stagedState).Store "office" = Except.ok stagedState) ∧
    ∃ s, memEnv.GetState
        (runCalls memEnv (managerWith office stagedState)
          [Call.ApprovePeer 10 "office" "pk1", Call.DeactivatePeer "office" "pk1",
            Call.ActivatePeer 20 "office" "pk1"]).Store "office" = Except.ok s ∧
      s.ActivePeers.get? "pk1" = some pk1 ∧
      ∀ k p, s.ActivePeers.get? k = some p → ∃ q, s.ApprovedPeers.get? k = some q :=
  ⟨⟨by decide, rfl⟩,
    _, rfl, by decide,
    ((active_peers_stay_approved memEnv (managerWith office stagedState) "office" office
      (by decide) (fun _ _ => rfl)
      [Call.ApprovePeer 10 "office" "pk1", Call.DeactivatePeer "office" "pk1",
        Call.ActivatePeer 20 "office" "pk1"]).1
      memEnv_reliable
      ⟨stagedState, rfl, keyed_staged keyed_empty pk1, activeApproved_empty⟩).elim
      fun s1 h => by
        have h2 := h.1
        cases h2
        exact h.2⟩

/-- C17 fails as stated, in two ways. With the peer of public key "pk2"
approved under the key "pk1" and nobody active, ActivatePeer of "pk1" makes
"pk2" a key of ActivePeers that is not a key of ApprovedPeers. With "pk1"
staged under its own key and a configuration callback that changes the
peer's public key (and touches no peer set), ApprovePeer on an overlay with
automatic activation makes "rekeyed" a key of ActivePeers that is not a key
of ApprovedPeers. -/
theorem active_peers_stay_approved_counterexample :
    (misfiledApproved.ActivePeers = GoMap.empty ∧
      ∃ s, memEnv.GetState
          (runCalls memEnv (managerWith office misfiledApproved)
            [Call.ActivatePeer 0 "office" "pk1"]).Store "office" = Except.ok s ∧
        s.ActivePeers.get? "pk2" = some pk2 ∧
        s.ApprovedPeers.get? "pk2" = none) ∧
    (stagedState.ActivePeers = GoMap.empty ∧
      stagedState.StagedPeers.get? pk1.PubKey = some pk1 ∧
      ∃ s, rekeyEnv.GetState
          (runCalls rekeyEnv (managerWith office stagedState)
            [Call.ApprovePeer 0 "office" "pk1"]).Store "office" = Except.ok s ∧
        (s.ActivePeers.get? "rekeyed").isSome = true ∧
        s.ApprovedPeers.get? "rekeyed" = none) :=
  ⟨⟨rfl, _, rfl, by decide, by decide⟩, rfl, rfl, _, rfl, by decide, by decide⟩

/-- C19: on a configured overlay with a reliable store, the cascades are
decided by the upper-cased mode strings alone. After its write of the staged
state, stagePeer continues with ApprovePeer of the client's key when the
upper-cased ApproveMode is "AUTO" and returns otherwise; after its write of
the approved state, ApprovePeer of a staged key continues with ActivatePeer
when the upper-cased ActivateMode is "AUTO" and returns otherwise. With
automatic approval the state stored after stagePeer has the client's key in
ApprovedPeers and not in StagedPeers. With any other ApproveMode, ApprovedPeers
is as before in the state stored after stagePeer and after
AttemptNetworkRegistration; with any other ActivateMode, ActivePeers is as
before in the state stored after ApprovePeer, and ApprovePeer dispatches no
sync. -/
theorem mode_decides_cascade (env : Env σ) (hr : env.Reliable) (now : Time)
    (nm : NetworkManager σ) (id : String) (c : NetConfig) (s : NetState)
    (hf : findNet nm.networks id = some c)
    (hg : env.GetState nm.Store id = Except.ok s) :
    (∀ client : Peer,
      stagePeer env now nm id client =
        if ToUpper c.ApproveMode = "AUTO" then
          ApprovePeer env now
            { networks := nm.networks,
              Store := (env.PutState nm.Store id (staged s client)).1,
              trace := nm.trace ++ [Effect.GetState id, Effect.PutState id (staged s client)] }
            id client.PubKey
        else
          ({ networks := nm.networks,
             Store := (env.PutState nm.Store id (staged s client)).1,
             trace := nm.trace ++ [Effect.GetState id, Effect.PutState id (staged s client)] },
            none)) ∧
    (∀ (k : String) (peer : Peer), s.StagedPeers.get? k = some peer →
      ApprovePeer env now nm id k =
        if ToUpper c.ActivateMode = "AUTO" then
          ActivatePeer env now
            { networks := nm.networks,
              Store := (env.PutState nm.Store id
                (approved c now s k
                  (env.configurePeer { toNetConfig := c, toNetState := s } peer))).1,
              trace := nm.trace ++ [Effect.GetState id,
                Effect.PutState id
                  (approved c now s k
                    (env.configurePeer { toNetConfig := c, toNetState := s } peer))] }
            id k
        else
          ({ networks := nm.networks,
             Store := (env.PutState nm.Store id
                (approved c now s k
                  (env.configurePeer { toNetConfig := c, toNetState := s } peer))).1,
             trace := nm.trace ++ [Effect.GetState id,
                Effect.PutState id
                  (approved c now s k
                    (env.configurePeer { toNetConfig := c, toNetState := s } peer))] },
            none)) ∧
    (ToUpper c.ApproveMode = "AUTO" → ∀ client : Peer,
      ∃ s1 : NetState,
        env.GetState (stagePeer env now nm id client).1.Store id = Except.ok s1 ∧
        s1.StagedPeers.get? client.PubKey = none ∧
        ∃ q, s1.ApprovedPeers.get? client.PubKey = some q) ∧
    (ToUpper c.ApproveMode ≠ "AUTO" → ∀ client : Peer,
      (∃ s1 : NetState,
        env.GetState (stagePeer env now nm id client).1.Store id = Except.ok s1 ∧
        s1.StagedPeers.get? client.PubKey = some client ∧
        s1.ApprovedPeers = s.ApprovedPeers) ∧
      ∃ s2 : NetState,
        env.GetState (AttemptNetworkRegistration env now nm id client).1.Store id =
          Except.ok s2 ∧
        s2.ApprovedPeers = s.ApprovedPeers) ∧
    (ToUpper c.ActivateMode ≠ "AUTO" → ∀ k : String,
      ∃ s1 : NetState,
        env.GetState (ApprovePeer env now nm id k).1.Store id = Except.ok s1 ∧
        s1.ActivePeers = s.ActivePeers ∧
        ∃ t : List Effect,
          (ApprovePeer env now nm id k).1.trace = nm.trace ++ t ∧ syncCount t = 0) := by
  refine ⟨fun client => stagePeer_store env hr now nm client hf hg,
    fun k peer hk => ApprovePeer_store env hr now nm hf hg hk, ?_, ?_, ?_⟩
  · intro ha client
    rw [stagePeer_store env hr now nm client hf hg, if_pos ha]
    have hk : (staged s client).StagedPeers.get? client.PubKey = some client :=
      GoMap.get?_set_self _ _ _
    obtain ⟨s1, h1, h2, h3, _⟩ := ApprovePeer_stored env hr now
      { networks := nm.networks,
        Store := (env.PutState nm.Store id (staged s client)).1,
        trace := nm.trace ++ [Effect.GetState id, Effect.PutState id (staged s client)] }
      hf (hr.get_put _ _ _) hk
    exact ⟨s1, h1, h2, _, h3⟩
  · intro ha client
    constructor
    · rw [stagePeer_store env hr now nm client hf hg, if_neg ha]
      exact ⟨staged s client, hr.get_put _ _ _, GoMap.get?_set_self _ _ _, rfl⟩
    · exact ⟨s, AttemptNetworkRegistration_stored env hr now nm client hf hg, rfl⟩
  · intro hm k
    cases hk : s.StagedPeers.get? k with
    | none =>
      refine ⟨s, ?_, rfl, [Effect.GetState id], ?_, rfl⟩
      · rw [ApprovePeer_unknown_store env now nm hf hg hk]
        exact hg
      · simp [ApprovePeer, GetNet_known env nm hf hg, hk, NetworkManager.emit]
    | some peer =>
      obtain ⟨s1, h1, _, _, h4⟩ := ApprovePeer_stored env hr now nm hf hg hk
      obtain ⟨h5, h6⟩ := h4 hm
      exact ⟨s1, h1, h5, _, h6, by simp [syncCount]⟩

/-- Witness of `mode_decides_cascade`: the overlay "all" spells its modes
"auto" and "Auto"; stagePeer of "pk1" cascades, and the state stored
afterwards has "pk1" approved and no longer staged. The mode strings
"MANUAL", "" and "AUTOMATIC" are not "AUTO" when upper-cased. -/
theorem mode_decides_cascade_witness :
    (findNet (freshManager autoAll).networks "all" = some autoAll ∧
      memEnv.GetState (freshManager autoAll).Store "all" = Except.ok NetState.empty ∧
      ToUpper autoAll.ApproveMode = "AUTO" ∧
      ToUpper autoAll.ActivateMode = "AUTO" ∧
      ToUpper "MANUAL" ≠ "AUTO" ∧ ToUpper "" ≠ "AUTO" ∧ ToUpper "AUTOMATIC" ≠ "AUTO") ∧
    ∃ s1 : NetState,
      memEnv.GetState (stagePeer memEnv 1000 (freshManager autoAll) "all" pk1).1.Store "all" =
        Except.ok s1 ∧
      s1.StagedPeers.get? pk1.PubKey = none ∧
      ∃ q, s1.ApprovedPeers.get? pk1.PubKey = some q :=
  ⟨⟨by decide, rfl, by decide, by decide, by decide, by decide, by decide⟩,
    (mode_decides_cascade memEnv memEnv_reliable 1000 (freshManager autoAll) "all" autoAll
      NetState.empty (by decide) rfl).2.2.1 (by decide) pk1⟩

end Claims

end Locksmith
